import Mathlib

/-!
# Verification of the `labelled_functions` pipeline core

Shallow embedding of the labelled-callable and pipeline machinery of the
`labelled_functions` repository (files `labelled_functions/abstract.py`,
`labelled_functions/labels.py`, `labelled_functions/pipeline.py`), together
with theorems settling the frozen claims about it.

Python values are modelled by the dynamic type `PyObj`; Python `dict`s by
insertion-ordered association lists (`SDict`) with Python's update semantics
(assigning to an existing key keeps its position, a new key is appended;
actual Python dicts never hold a key twice, so replacing the first
occurrence of a key is a faithful rendering of item assignment).
A Python function called with keyword arguments binds them by *name*, so the
wrapped functions are modelled as consuming a name-to-value map
(`String → Option PyObj`) plus the positional argument list.
Raised exceptions are modelled with `Except PyErr`.
-/

/-- A dynamic Python value, covering the shapes the library inspects:
`None`, numbers, strings, booleans, tuples, lists and (string-keyed) dicts. -/
inductive PyObj where
  | none   : PyObj
  | int    : Int → PyObj
  | str    : String → PyObj
  | bool   : Bool → PyObj
  | tuple  : List PyObj → PyObj
  | list   : List PyObj → PyObj
  | dict   : List (String × PyObj) → PyObj

/-- An insertion-ordered association list, modelling a Python `dict` with
string keys. -/
abbrev SDict (β : Type) := List (String × β)

namespace SDict

variable {β : Type}

/-- The keys of the dict, in order. -/
def keys (d : SDict β) : List String := d.map Prod.fst

/-- `d[k]`, as an `Option` (the first entry carrying the key). -/
def get : SDict β → String → Option β
  | [], _ => Option.none
  | p :: d, k => if p.1 = k then some p.2 else get d k

/-- The last entry carrying the key, if any (used to describe `update` when
the right-hand dict is an arbitrary association list). -/
def lastGet : SDict β → String → Option β
  | [], _ => Option.none
  | p :: d, k =>
    match lastGet d k with
    | some v => some v
    | Option.none => if p.1 = k then some p.2 else Option.none

/-- `d[k] = v`: overwrite the entry in place if the key is present (keeping
its position), append otherwise.  This is Python's `dict` item assignment. -/
def set : SDict β → String → β → SDict β
  | [], k, v => [(k, v)]
  | p :: d, k, v => if p.1 = k then (k, v) :: d else p :: set d k v

/-- `d.update(e)` / `{**d, **e}`: assign every entry of `e` into `d`,
in order. -/
def update (d e : SDict β) : SDict β :=
  e.foldl (fun acc p => set acc p.1 p.2) d

/-- `del d[k]` (for dicts with unique keys; removes every entry with the
key). -/
def erase (d : SDict β) (k : String) : SDict β :=
  d.filter (fun p => p.1 ≠ k)

/-- Restrict the dict to the keys satisfying `p`, keeping the order. -/
def restrict (d : SDict β) (p : String → Bool) : SDict β :=
  d.filter (fun q => p q.1)

@[simp] theorem keys_nil : keys ([] : SDict β) = [] := rfl

@[simp] theorem keys_cons (p : String × β) (d : SDict β) :
    keys (p :: d) = p.1 :: keys d := rfl

theorem get_eq_none_iff (d : SDict β) (k : String) :
    get d k = Option.none ↔ k ∉ keys d := by
  induction d with
  | nil => simp [get]
  | cons p d ih =>
    show (if p.1 = k then some p.2 else get d k) = Option.none ↔ _
    by_cases h : p.1 = k
    · simp [h]
    · simp only [h, if_false, ih, keys_cons, List.mem_cons, not_or]
      exact ⟨fun hk => ⟨fun he => h he.symm, hk⟩, fun hk => hk.2⟩

theorem get_isSome_iff (d : SDict β) (k : String) :
    (get d k).isSome ↔ k ∈ keys d := by
  rw [← Decidable.not_iff_not, ← get_eq_none_iff]
  cases get d k <;> simp

theorem lastGet_eq_none_iff (d : SDict β) (k : String) :
    lastGet d k = Option.none ↔ k ∉ keys d := by
  induction d with
  | nil => simp [lastGet]
  | cons p d ih =>
    show (match lastGet d k with
          | some v => some v
          | Option.none => if p.1 = k then some p.2 else Option.none) = Option.none ↔ _
    rcases h : lastGet d k with _ | v
    · by_cases hp : p.1 = k
      · simp [hp, ih.mp h]
      · have hp' : ¬ (k = p.1) := fun he => hp he.symm
        simp only [hp, if_false, keys_cons, List.mem_cons, not_or]
        simp [hp', ih.mp h]
    · simp only [keys_cons, List.mem_cons, not_or]
      constructor
      · intro hc; exact absurd hc (by simp)
      · intro hk; exact absurd h (by rw [ih.mpr hk.2]; simp)

theorem get_set_self (d : SDict β) (k : String) (v : β) :
    get (set d k v) k = some v := by
  induction d with
  | nil => simp [set, get]
  | cons p d ih =>
    show get (if p.1 = k then (k, v) :: d else p :: set d k v) k = some v
    by_cases h : p.1 = k
    · simp [h, get]
    · simp only [h, if_false]
      show (if p.1 = k then some p.2 else get (set d k v) k) = some v
      simp [h, ih]

theorem get_set_ne (d : SDict β) (k m : String) (v : β) (h : m ≠ k) :
    get (set d k v) m = get d m := by
  have h' : ¬ (k = m) := fun he => h he.symm
  induction d with
  | nil =>
    simp only [set, get]
    simp [h']
  | cons p d ih =>
    show get (if p.1 = k then (k, v) :: d else p :: set d k v) m = _
    by_cases hp : p.1 = k
    · simp only [hp, if_true, get]
      simp [h', hp]
    · simp only [hp, if_false, get, ih]

theorem get_set (d : SDict β) (k m : String) (v : β) :
    get (set d k v) m = if m = k then some v else get d m := by
  by_cases h : m = k
  · simp [h, get_set_self]
  · simp [h, get_set_ne d k m v h]

theorem mem_keys_set (d : SDict β) (k : String) (v : β) (m : String) :
    m ∈ keys (set d k v) ↔ m = k ∨ m ∈ keys d := by
  rw [← Decidable.not_iff_not, ← get_eq_none_iff, get_set]
  by_cases h : m = k
  · simp [h]
  · simp [h, get_eq_none_iff]

/-- Looking up in `update d e`: the *last* binding of the key in `e` wins,
otherwise fall back to `d`. -/
theorem get_update (d e : SDict β) (m : String) :
    get (update d e) m =
      match lastGet e m with
      | some v => some v
      | Option.none => get d m := by
  induction e generalizing d with
  | nil => simp [update, lastGet]
  | cons p e ih =>
    show get (update (set d p.1 p.2) e) m = _
    rw [ih]
    show _ = (match (match lastGet e m with
                     | some v => some v
                     | Option.none => if p.1 = m then some p.2 else Option.none) with
              | some v => some v
              | Option.none => get d m)
    rcases h : lastGet e m with _ | v
    · simp only [get_set]
      by_cases hm : m = p.1
      · simp [hm]
      · have hm' : ¬ (p.1 = m) := fun he => hm he.symm
        simp [hm, hm']
    · rfl

theorem keys_update (d e : SDict β) (m : String) :
    m ∈ keys (update d e) ↔ m ∈ keys d ∨ m ∈ keys e := by
  rw [← Decidable.not_iff_not, ← get_eq_none_iff, get_update]
  rcases h : lastGet e m with _ | v
  · have := (lastGet_eq_none_iff e m).mp h
    simp [get_eq_none_iff, this]
  · have : m ∈ keys e := by
      by_contra hc
      rw [(lastGet_eq_none_iff e m).mpr hc] at h
      cases h
    simp [this]

theorem get_restrict (d : SDict β) (p : String → Bool) (m : String) :
    get (restrict d p) m = if p m then get d m else Option.none := by
  induction d with
  | nil => simp [restrict, get]
  | cons q d ih =>
    by_cases hq : p q.1
    · have hr : restrict (q :: d) p = q :: restrict d p := by
        unfold restrict
        exact List.filter_cons_of_pos hq
      rw [hr]
      show (if q.1 = m then some q.2 else get (restrict d p) m) = _
      by_cases hqm : q.1 = m
      · subst hqm
        simp [hq, get]
      · rw [if_neg hqm, ih]
        have hg : get (q :: d) m = get d m := by simp [get, hqm]
        rw [hg]
    · have hr : restrict (q :: d) p = restrict d p := by
        unfold restrict
        exact List.filter_cons_of_neg (by simpa using hq)
      rw [hr, ih]
      by_cases hqm : q.1 = m
      · subst hqm
        simp [hq]
      · have hg : get (q :: d) m = get d m := by simp [get, hqm]
        rw [hg]

theorem get_erase (d : SDict β) (k m : String) :
    get (erase d k) m = if m = k then Option.none else get d m := by
  have : erase d k = restrict d (fun s => s ≠ k) := rfl
  rw [this, get_restrict]
  by_cases h : m = k <;> simp [h]

theorem mem_keys_restrict (d : SDict β) (p : String → Bool) (m : String) :
    m ∈ keys (restrict d p) ↔ m ∈ keys d ∧ p m := by
  rw [← Decidable.not_iff_not, ← get_eq_none_iff, get_restrict]
  by_cases h : p m
  · simp [h, get_eq_none_iff]
  · simp [h]

/-- On dicts with no repeated key, the first and the last entry coincide. -/
theorem lastGet_eq_get_of_nodup (d : SDict β) (h : (keys d).Nodup) (m : String) :
    lastGet d m = get d m := by
  induction d with
  | nil => rfl
  | cons p d ih =>
    simp only [keys_cons, List.nodup_cons] at h
    show (match lastGet d m with
          | some v => some v
          | Option.none => if p.1 = m then some p.2 else Option.none)
        = (if p.1 = m then some p.2 else get d m)
    rcases hg : lastGet d m with _ | v
    · rw [ih h.2] at hg
      rw [hg]
    · have hm : m ∈ keys d := by
        by_contra hc
        rw [(lastGet_eq_none_iff d m).mpr hc] at hg
        cases hg
      have : ¬ (p.1 = m) := fun he => h.1 (he ▸ hm)
      simp [this, ← ih h.2, hg]

end SDict

/-! ## Errors

The library reports misuse by raising `TypeError` / `AttributeError` /
`KeyError` / `AssertionError` with diagnostic messages.  Each error is
modelled by a constructor carrying the data interpolated into the Python
message (the class name, the callable's display name, and the offending
names, which the messages print as a set). -/

/-- A raised Python exception, carrying the data of its message. -/
inductive PyErr where
  /-- `TypeError(f"{cls} {name} is missing argument(s): {missing}")`. -/
  | missingArgument (cls : String) (callableName : String) (names : Finset String)
  /-- `TypeError(f"{cls} {name} got unexpected argument(s): {superfluous}")`. -/
  | unexpectedArgument (cls : String) (callableName : String) (names : Finset String)
  /-- `TypeError(f"Inconsistent output in {name}!")`. -/
  | inconsistentOutput (callableName : String)
  /-- `AttributeError` from `pipeline.py`: building a pipeline from a
  function whose outputs are unknown. -/
  | unknownOutputs
  /-- `AttributeError(f"Trying to hide an input with no default value: …")`. -/
  | unhiddableInput (names : Finset String)
  /-- `KeyError` from `del self.default_values[name]` in `reset_default`. -/
  | keyError (name : String)
  /-- The `assert set(default_values) <= set(input_names)` in
  `AbstractLabelledCallable.__init__`. -/
  | assertionError
deriving DecidableEq

/-! ## The labelled callable

`AbstractLabelledCallable` (`abstract.py`) wraps a function together with a
name, input names, output names (`Unknown`, i.e. not yet determined, is
modelled by `Option.none`), default values and the `_has_never_been_run`
flag.  The wrapped function is called as `self.function(*args, **kwargs)`;
Python binds the keyword arguments by name, so it is modelled as a map
consumer.  `className` models `self.__class__.__name__`, which appears in
error messages. -/

/-- A labelled callable: `AbstractLabelledCallable`'s data. -/
structure LabelledFunction where
  className : String := "LabelledFunction"
  name : String
  input_names : List String
  /-- `Option.none` models the `Unknown` sentinel. -/
  output_names : Option (List String)
  default_values : SDict PyObj
  function : List PyObj → (String → Option PyObj) → PyObj
  hasNeverBeenRun : Bool := true

/-- `AbstractLabelledCallable._preprocess_inputs` (shared by the plain
callable and the pipeline, which differ only in the class name shown in
error messages): merge defaults (minus the positionally passed names) under
the keyword arguments, then check for missing and for superfluous names. -/
def preprocessCore (className name : String) (input_names : List String)
    (default_values : SDict PyObj) (args : List PyObj)
    (kwargs : SDict PyObj) : Except PyErr (List PyObj × SDict PyObj) :=
  let passedAsPositional := input_names.take args.length
  let actualDefaultValues :=
    default_values.restrict (fun n => ¬ passedAsPositional.contains n)
  let kwargs := actualDefaultValues.update kwargs
  let passed : Finset String :=
    passedAsPositional.toFinset ∪ (SDict.keys kwargs).toFinset
  let required : Finset String := input_names.toFinset
  let missingInputs := required \ passed
  if missingInputs ≠ ∅ then
    .error (.missingArgument className name missingInputs)
  else
    let superfluousInputs := passed \ required
    if superfluousInputs ≠ ∅ then
      .error (.unexpectedArgument className name superfluousInputs)
    else
      .ok (args, kwargs)

namespace LabelledFunction

/-- `AbstractLabelledCallable._preprocess_inputs` on a labelled function. -/
def preprocessInputs (f : LabelledFunction) (args : List PyObj)
    (kwargs : SDict PyObj) : Except PyErr (List PyObj × SDict PyObj) :=
  preprocessCore f.className f.name f.input_names f.default_values args kwargs

/-- Is the value a Python `tuple` or `list`  (`_is_tuple_or_list`)? -/
def isTupleOrList : PyObj → Bool
  | .tuple _ => true
  | .list _ => true
  | _ => false

/-- Is the value a Python `tuple`? -/
def isTuple : PyObj → Bool
  | .tuple _ => true
  | _ => false

/-- The elements obtained by iterating over the value.  This is faithful
only for tuples and lists: Python would iterate a string character by
character and raise a `TypeError` from `zip` on a non-iterable value,
neither of which is modelled here.  Accordingly, every statement below that
applies `outputAsDict` to an unconstrained result restricts the result to
`None`, a tuple, a list or a mapping. -/
def pyElems : PyObj → List PyObj
  | .tuple xs => xs
  | .list xs => xs
  | .dict d => d.map (fun p => .str p.1)
  | _ => []

/-- `AbstractLabelledCallable._guess_output_names_from`: infer output names
from the shape of the first result. -/
def guessOutputNamesFrom (name : String) (result : PyObj) : List String :=
  match result with
  | .none => []
  | .tuple xs =>
    if xs.length > 1 then (List.range xs.length).map (fun i => s!"{name}[{i}]")
    else [name]
  | .list xs =>
    if xs.length > 1 then (List.range xs.length).map (fun i => s!"{name}[{i}]")
    else [name]
  | .dict d => SDict.keys d
  | _ => [name]

/-- `AbstractLabelledCallable._output_as_dict`: present a result as a
name-to-value mapping using the output names.  Faithful for `None`,
mapping, tuple and list results and for any result against a single
declared name; in the remaining branch (several names, other value) the
Python code `zip`s over the result, raising a `TypeError` for a
non-iterable value and pairing a string's characters — cases the `pyElems`
fallback does not model, so the statements below avoid them. -/
def outputAsDict (output_names : List String) (result : PyObj) : SDict PyObj :=
  match result with
  | .none => []
  | .dict d => d
  | r =>
    if output_names.length = 1 ∧ ¬ isTuple r then
      match output_names with
      | [o] => [(o, r)]
      | _ => output_names.zip (pyElems r)
    else
      output_names.zip (pyElems r)

/-- `AbstractLabelledCallable._postprocess_outputs`: on the first run,
freeze the output names (inferring them if they are still unknown) and
check that the result's keys agree with them; later runs return the result
unchanged.  The updated object is returned alongside the result. -/
def postprocessOutputs (f : LabelledFunction) (result : PyObj) :
    Except PyErr (PyObj × LabelledFunction) :=
  if f.hasNeverBeenRun then
    let f := { f with hasNeverBeenRun := false }
    let f :=
      match f.output_names with
      | Option.none => { f with output_names := some (guessOutputNamesFrom f.name result) }
      | some _ => f
    let names := f.output_names.getD []
    if (SDict.keys (outputAsDict names result)).toFinset ≠ names.toFinset then
      .error (.inconsistentOutput f.name)
    else
      .ok (result, f)
  else
    .ok (result, f)

/-- `AbstractLabelledCallable.__call__`. -/
def call (f : LabelledFunction) (args : List PyObj) (kwargs : SDict PyObj) :
    Except PyErr (PyObj × LabelledFunction) := do
  let (args, kwargs) ← f.preprocessInputs args kwargs
  let result := f.function args (SDict.get kwargs)
  postprocessOutputs f result

/-- `AbstractLabelledCallable.apply_in_namespace`: call the function on the
variables of the namespace it needs and merge its outputs back in. -/
def applyInNamespace (f : LabelledFunction) (namespace_ : SDict PyObj) :
    Except PyErr (SDict PyObj × LabelledFunction) := do
  let inputs := namespace_.restrict (fun n => f.input_names.contains n)
  let (result, f) ← f.call [] inputs
  let outputs := outputAsDict (f.output_names.getD []) result
  .ok (namespace_.update outputs, f)

/-! ### Derived-variant operations (`abstract.py`) -/

/-- `rename`. -/
def rename (f : LabelledFunction) (name : String) : LabelledFunction :=
  { f with name := name }

/-- `set_default`: merge new default values over the existing ones. -/
def set_default (f : LabelledFunction) (namesAndValues : SDict PyObj) :
    LabelledFunction :=
  { f with default_values := f.default_values.update namesAndValues }

/-- `reset_default`: delete the defaults of the given names
(`KeyError` if a name has none). -/
def reset_default (f : LabelledFunction) (names : List String) :
    Except PyErr LabelledFunction :=
  match names with
  | [] => .ok f
  | n :: rest =>
    if n ∈ SDict.keys f.default_values then
      reset_default { f with default_values := f.default_values.erase n } rest
    else
      .error (.keyError n)

/-- Modelled from the spec: `LabelledFunction.fix` is code of this
repository missing from `src/` (`labels.py` in the snapshot is an older
generation without it; `LabelledPipeline.fix` calls it on each step).
Spec §4.1: partially apply a subset of inputs to fixed values, producing a
callable with those names removed from `input_names` and from
`default_values`, and the function closed over the fixed values. -/
def fix (f : LabelledFunction) (namesAndValues : SDict PyObj) :
    LabelledFunction :=
  { f with
      input_names :=
        f.input_names.filter (fun n => ¬ n ∈ SDict.keys namesAndValues),
      default_values :=
        f.default_values.restrict (fun n => ¬ (SDict.keys namesAndValues).contains n),
      function := fun args m =>
        f.function args (fun k =>
          match SDict.get namesAndValues k with
          | some v => some v
          | Option.none => m k) }

/-- `hide`: fail on names with no default, otherwise `fix` the hidden names
to their default values. -/
def hide (f : LabelledFunction) (hiddenNames : List String) :
    Except PyErr LabelledFunction :=
  let unhiddableNames : Finset String :=
    hiddenNames.toFinset \ (SDict.keys f.default_values).toFinset
  if unhiddableNames ≠ ∅ then
    .error (.unhiddableInput unhiddableNames)
  else
    .ok (f.fix (f.default_values.restrict (fun n => hiddenNames.contains n)))

end LabelledFunction

/-! ## Idempotent wrapping (`labels.py`, `LabelledFunction.__new__`) -/

/-- A value handed to the `LabelledFunction` constructor: either a plain
Python function together with its introspectable signature data, or an
already-labelled callable. -/
inductive PyCallable where
  | plain (name : String) (params : List (String × Option PyObj))
      (declaredOutputs : Option (List String))
      (function : List PyObj → (String → Option PyObj) → PyObj)
  | labelled (f : LabelledFunction)

/-- `LabelledFunction.__new__` / `__init__`: an already-labelled callable is
returned unchanged (identity); a plain function is wrapped by reading its
parameter names and defaults off its signature.  `declaredOutputs` models
the normalised return declaration; the source-parsing fallback that guesses
output names from the return statement is an out-of-scope collaborator
(spec §1) and is subsumed in `declaredOutputs`, with `Option.none`
modelling the `Unknown` sentinel. -/
def wrap : PyCallable → LabelledFunction
  | .labelled f => f
  | .plain name params declaredOutputs function =>
      { name := name,
        input_names := params.map Prod.fst,
        output_names := declaredOutputs,
        default_values := params.foldr (fun p acc =>
          match p.2 with
          | some v => (p.1, v) :: acc
          | Option.none => acc) [],
        function := function }

/-! ## The pipeline (`pipeline.py`)

`LabelledPipeline._graph` makes a single forward pass over the steps,
maintaining the pipeline-level inputs, the outputs, the last producer of
each variable, the inherited default values and the dependency edges.
Python stores `pipe_inputs`/`pipe_outputs` in `set`s, whose iteration order
is unspecified; they are modelled as duplicate-free lists in first-insertion
order, and all statements about them are membership statements.  Of the
edge set only the edges with `start = None` are retained
(`noneEdges`): they are the only ones `fix` consults through
`_which_input_is_used_by_this_function`, and the dummy-node fusion step of
`_graph` (a rendering aid) only rewrites groups of edges whose start is a
function, so it neither adds nor removes edges with `start = None`; the
final output edges have a function start as well.  -/

/-- Add to a list modelling a `set` (membership is what matters). -/
def addIfAbsent (l : List String) (x : String) : List String :=
  if x ∈ l then l else l ++ [x]

/-- The state threaded through `LabelledPipeline._graph`'s forward pass. -/
structure GraphState where
  pipe_inputs : List String
  pipe_outputs : List String
  /-- variable name => function that returned it last. -/
  last_modified : SDict String
  default_values : SDict PyObj
  /-- the edges `Edge(None, var, f.name)`, as (var, f.name). -/
  noneEdges : List (String × String)

/-- Processing one input variable of a step inside `_graph`'s loop. -/
def processInputVar (ri : Bool) (fname : String) (stepDefaults : SDict PyObj)
    (s : GraphState) (var : String) : GraphState :=
  match SDict.get s.last_modified var with
  | some _ =>
    -- This variable is the output of a previous function.
    if ri then s
    else { s with pipe_outputs := s.pipe_outputs.filter (fun v => v ≠ var) }
  | Option.none =>
    -- The variable must be a global input.
    let s := { s with
        pipe_inputs := addIfAbsent s.pipe_inputs var,
        noneEdges := s.noneEdges ++ [(var, fname)] }
    match SDict.get stepDefaults var with
    | some v => { s with default_values := s.default_values.set var v }
    | Option.none => s

/-- Processing one output variable of a step inside `_graph`'s loop. -/
def processOutputVar (fname : String) (s : GraphState) (var : String) :
    GraphState :=
  { s with
      last_modified := s.last_modified.set var fname,
      pipe_outputs := addIfAbsent s.pipe_outputs var }

/-- One step of `_graph`'s forward pass: the input loop, then the output
loop. -/
def graphStep (ri : Bool) (s : GraphState) (f : LabelledFunction) : GraphState :=
  let s := f.input_names.foldl (processInputVar ri f.name f.default_values) s
  (f.output_names.getD []).foldl (processOutputVar f.name) s

/-- `_graph`'s pass over a list of steps, from a given state. -/
def graphFold (ri : Bool) : GraphState → List LabelledFunction → GraphState
  | s, [] => s
  | s, f :: fs => graphFold ri (graphStep ri s f) fs

/-- The initial, empty graph state. -/
def emptyGraphState : GraphState := ⟨[], [], [], [], []⟩

/-- `LabelledPipeline._graph` (the resolution-relevant components). -/
def graphOf (ri : Bool) (funcs : List LabelledFunction) : GraphState :=
  graphFold ri emptyGraphState funcs

/-- A composed pipeline: `LabelledPipeline`'s data after construction. -/
structure LabelledPipeline where
  funcs : List LabelledFunction
  name : String
  return_intermediate_outputs : Bool
  input_names : List String
  output_names : List String
  default_values : SDict PyObj
  hasNeverBeenRun : Bool := true

/-- The default pipeline display name, `" | ".join(f.name for f in funcs)`. -/
def joinNames (funcs : List LabelledFunction) : String :=
  String.intercalate " | " (funcs.map (fun f => f.name))

/-- `LabelledPipeline.__init__`: reject steps with unknown outputs, resolve
the graph, merge an explicit `default_values` argument over the inherited
step defaults, and run the base-class `__init__` (whose assertion
`set(default_values) <= set(input_names)` is modelled as a possible
`AssertionError`).  The steps are assumed already labelled (the
`label` wrapper applied to them is idempotent on labelled callables). -/
def mkLabelledPipeline (funcs : List LabelledFunction) (name : Option String)
    (default_values : Option (SDict PyObj)) (ri : Bool) :
    Except PyErr LabelledPipeline :=
  if funcs.any (fun f => f.output_names.isNone) then
    .error .unknownOutputs
  else
    let g := graphOf ri funcs
    let subDefaults :=
      match default_values with
      | Option.none => g.default_values
      | some dv => g.default_values.update dv
    if (SDict.keys subDefaults).all (fun k => g.pipe_inputs.contains k) then
      .ok { funcs := funcs,
            name := name.getD (joinNames funcs),
            return_intermediate_outputs := ri,
            input_names := g.pipe_inputs,
            output_names := g.pipe_outputs,
            default_values := subDefaults }
    else
      .error .assertionError

/-- The body of the pipeline's `function` closure: thread the namespace
through each step's `apply_in_namespace`, in order, returning the final
namespace and the (possibly first-run-updated) steps. -/
def applyFuncs : List LabelledFunction → SDict PyObj →
    Except PyErr (SDict PyObj × List LabelledFunction)
  | [], ns => .ok (ns, [])
  | f :: fs, ns => do
    let (ns, f') ← f.applyInNamespace ns
    let (ns, fs') ← applyFuncs fs ns
    .ok (ns, f' :: fs')

namespace LabelledPipeline

/-- `LabelledPipeline.__call__` (through `AbstractLabelledCallable.__call__`):
preprocess the keyword arguments, run the closure (apply each step to the
namespace and keep the entries named in `output_names`), and postprocess the
resulting dict. -/
def call (p : LabelledPipeline) (kwargs : SDict PyObj) :
    Except PyErr (SDict PyObj × LabelledPipeline) := do
  let (_, kwargs) ←
    preprocessCore "LabelledPipeline" p.name p.input_names p.default_values [] kwargs
  let (ns, funcs') ← applyFuncs p.funcs kwargs
  let result := ns.restrict (fun n => p.output_names.contains n)
  -- `_postprocess_outputs` with the (always known) pipeline output names:
  if p.hasNeverBeenRun then
    if (SDict.keys (LabelledFunction.outputAsDict p.output_names (.dict result))).toFinset
        ≠ p.output_names.toFinset then
      .error (.inconsistentOutput p.name)
    else
      .ok (result, { p with funcs := funcs', hasNeverBeenRun := false })
  else
    .ok (result, { p with funcs := funcs' })

/-- The returned mapping of a pipeline call. -/
def callValue (p : LabelledPipeline) (kwargs : SDict PyObj) :
    Except PyErr (SDict PyObj) :=
  (p.call kwargs).map Prod.fst

/-- `LabelledPipeline._which_input_is_used_by_this_function`, read off for
one function name: the labels of the stored edges with `start = None`
ending at it (computed from `_graph_data`, which `__init__` stores as the
graph of the step list). -/
def inputsUsedBy (p : LabelledPipeline) (fname : String) : List String :=
  ((graphOf p.return_intermediate_outputs p.funcs).noneEdges.filter
    (fun e => e.2 = fname)).map Prod.fst

/-- `LabelledPipeline.fix`: apply `fix` to each step for the fixed names it
consumes as a pipeline-level input, and rebuild the pipeline with those
names dropped from the default values. -/
def fix (p : LabelledPipeline) (namesToFix : SDict PyObj) :
    Except PyErr LabelledPipeline :=
  let fixedFuncs := p.funcs.map (fun f =>
    let fixableNames :=
      namesToFix.restrict (fun k => (p.inputsUsedBy f.name).contains k)
    if fixableNames.length > 0 then f.fix fixableNames else f)
  mkLabelledPipeline fixedFuncs (some p.name)
    (some (p.default_values.restrict
      (fun n => ¬ (SDict.keys namesToFix).contains n)))
    p.return_intermediate_outputs

end LabelledPipeline

/-! ## Generic helpers -/

/-- The error of a failed computation, if any (used to state which
exception a call raises). -/
def errOf {α : Type} : Except PyErr α → Option PyErr
  | .error e => some e
  | .ok _ => Option.none

theorem except_ok_bind {ε α β : Type} (a : α) (g : α → Except ε β) :
    (Except.ok a >>= g) = g a := rfl

theorem except_error_bind {ε α β : Type} (e : ε) (g : α → Except ε β) :
    ((Except.error e : Except ε α) >>= g) = .error e := rfl

theorem except_bind_ok_iff {ε α β : Type} (x : Except ε α)
    (g : α → Except ε β) (b : β) :
    (x >>= g) = .ok b ↔ ∃ a, x = .ok a ∧ g a = .ok b := by
  cases x with
  | ok a => simp [except_ok_bind]
  | error e =>
    rw [except_error_bind]
    constructor
    · intro h; cases h
    · rintro ⟨a, h, _⟩; cases h

/-! ## Claim C10 — idempotent wrapping -/

/-- **C10.**  Wrapping is idempotent: applying the `LabelledFunction`
constructor to an already-labelled callable returns the identical object,
so `LabelledFunction(LabelledFunction(f))` is `LabelledFunction(f)` for
every constructor argument `f`. -/
theorem wrap_idempotent (c : PyCallable) :
    wrap (.labelled (wrap c)) = wrap c := rfl

/-! ## Claim C2 — the spec's worked two-step example -/

/-- The step `f(a) -> b` with `b = 2*a` from the spec's worked example. -/
def exampleStepF : LabelledFunction :=
  { name := "f",
    input_names := ["a"],
    output_names := some ["b"],
    default_values := [],
    function := fun _ m =>
      match m "a" with
      | some (.int x) => .int (2 * x)
      | _ => .none }

/-- The step `g(b, c=3) -> output` with `output = c - b`. -/
def exampleStepG : LabelledFunction :=
  { name := "g",
    input_names := ["b", "c"],
    output_names := some ["output"],
    default_values := [("c", .int 3)],
    function := fun _ m =>
      match m "c", m "b" with
      | some (.int c), some (.int b) => .int (c - b)
      | _, _ => .none }

/-- A placeholder pipeline (never reached: `examplePipe`'s construction
succeeds). -/
def junkPipe : LabelledPipeline :=
  { funcs := [], name := "", return_intermediate_outputs := false,
    input_names := [], output_names := [], default_values := [] }

/-- The pipeline `[f, g]` of the worked example. -/
def examplePipe : LabelledPipeline :=
  ((mkLabelledPipeline [exampleStepF, exampleStepG] Option.none Option.none
    false).toOption).getD junkPipe

/-- **C2.**  For the pipeline `[f, g]` with `f(a) -> b = 2*a` and
`g(b, c=3) -> output = c - b`: construction succeeds, the resolved final
outputs are exactly `[output]` (`b` is intermediate), calling with `a=1`
returns `{output: 1}`, and calling with `a=1, c=0` returns
`{output: -2}`. -/
theorem example_pipeline_behaviour :
    (mkLabelledPipeline [exampleStepF, exampleStepG] Option.none Option.none false
      = .ok examplePipe)
    ∧ examplePipe.output_names = ["output"]
    ∧ examplePipe.callValue [("a", .int 1)] = .ok [("output", .int 1)]
    ∧ examplePipe.callValue [("a", .int 1), ("c", .int 0)]
        = .ok [("output", .int (-2))] :=
  ⟨rfl, rfl, rfl, rfl⟩

/-! ## Call-shape lemmas -/

namespace LabelledFunction

theorem call_ok_elim (f : LabelledFunction) (args : List PyObj)
    (kwargs : SDict PyObj) (r : PyObj) (f' : LabelledFunction)
    (h : f.call args kwargs = .ok (r, f')) :
    ∃ args' kwargs',
      f.preprocessInputs args kwargs = .ok (args', kwargs') ∧
      postprocessOutputs f (f.function args' (SDict.get kwargs')) = .ok (r, f') := by
  unfold call at h
  rcases hpre : f.preprocessInputs args kwargs with e | ⟨args', kwargs'⟩
  · rw [hpre, except_error_bind] at h
    cases h
  · rw [hpre, except_ok_bind] at h
    exact ⟨args', kwargs', rfl, h⟩

theorem call_of_preprocess_ok (f : LabelledFunction) (args : List PyObj)
    (kwargs : SDict PyObj) (args' : List PyObj) (kwargs' : SDict PyObj)
    (h : f.preprocessInputs args kwargs = .ok (args', kwargs')) :
    f.call args kwargs
      = postprocessOutputs f (f.function args' (SDict.get kwargs')) := by
  unfold call
  rw [h, except_ok_bind]

theorem call_of_preprocess_error (f : LabelledFunction) (args : List PyObj)
    (kwargs : SDict PyObj) (e : PyErr)
    (h : f.preprocessInputs args kwargs = .error e) :
    f.call args kwargs = .error e := by
  unfold call
  rw [h, except_error_bind]

/-- After the first run, `_postprocess_outputs` returns the result and the
object unchanged. -/
theorem postprocess_of_hasRun (f : LabelledFunction) (res : PyObj)
    (h : f.hasNeverBeenRun = false) :
    postprocessOutputs f res = .ok (res, f) := by
  unfold postprocessOutputs
  rw [h]
  rfl

/-- On the first run with unknown output names, `_postprocess_outputs`
freezes the guessed names (the guess never fails its own consistency check
except for short tuples, so the success case is characterised here). -/
theorem postprocess_first_unknown (f : LabelledFunction) (res : PyObj)
    (r : PyObj) (f' : LabelledFunction)
    (hrun : f.hasNeverBeenRun = true)
    (hnames : f.output_names = Option.none)
    (h : postprocessOutputs f res = .ok (r, f')) :
    r = res ∧
    f' = { f with hasNeverBeenRun := false,
                  output_names := some (guessOutputNamesFrom f.name res) } := by
  unfold postprocessOutputs at h
  rw [hrun] at h
  simp only [if_true] at h
  rw [hnames] at h
  by_cases hchk :
      (SDict.keys (outputAsDict
          ((some (guessOutputNamesFrom f.name res)).getD []) res)).toFinset
        ≠ (( some (guessOutputNamesFrom f.name res)).getD []).toFinset
  · rw [if_pos hchk] at h
    cases h
  · rw [if_neg hchk] at h
    cases h
    exact ⟨rfl, rfl⟩

/-- On the first run with declared output names, `_postprocess_outputs`
either flags an inconsistent result or returns it with the flag cleared. -/
theorem postprocess_first_known (f : LabelledFunction) (res : PyObj)
    (names : List String)
    (hrun : f.hasNeverBeenRun = true)
    (hnames : f.output_names = some names) :
    postprocessOutputs f res =
      if (SDict.keys (outputAsDict names res)).toFinset ≠ names.toFinset then
        .error (.inconsistentOutput f.name)
      else
        .ok (res, { f with hasNeverBeenRun := false }) := by
  unfold postprocessOutputs
  rw [hrun]
  simp only [if_true, hnames, Option.getD_some]

end LabelledFunction

/-- A preprocessing failure is always a missing-argument or an
unexpected-argument error. -/
theorem preprocess_error_cases (cls nm : String) (ins : List String)
    (dvs : SDict PyObj) (args : List PyObj) (kwargs : SDict PyObj) (e : PyErr)
    (h : preprocessCore cls nm ins dvs args kwargs = .error e) :
    (∃ s, e = .missingArgument cls nm s) ∨ (∃ s, e = .unexpectedArgument cls nm s) := by
  simp only [preprocessCore] at h
  split at h
  · cases h
    exact Or.inl ⟨_, rfl⟩
  · split at h
    · cases h
      exact Or.inr ⟨_, rfl⟩
    · cases h

/-! ## Claim C4 — lazy output-name inference -/

/-- **C4.**  When a labelled callable with unknown output names is invoked
successfully for the first time, its output names are inferred from the
shape of the result: `None` gives no names, a mapping gives its keys in
order, a tuple or list of length > 1 gives `name[0], name[1], …`, and any
other single value gives `[name]`; the inferred names are frozen
(`_has_never_been_run` cleared) and no later successful call changes
them. -/
theorem output_inference_first_call
    (f : LabelledFunction) (args : List PyObj) (kwargs : SDict PyObj)
    (r : PyObj) (f' : LabelledFunction)
    (hnames : f.output_names = Option.none)
    (hnew : f.hasNeverBeenRun = true)
    (hcall : f.call args kwargs = .ok (r, f')) :
    f'.output_names = some (
      match r with
      | .none => []
      | .dict d => SDict.keys d
      | .tuple xs =>
        if xs.length > 1 then
          (List.range xs.length).map (fun i => s!"{f.name}[{i}]")
        else [f.name]
      | .list xs =>
        if xs.length > 1 then
          (List.range xs.length).map (fun i => s!"{f.name}[{i}]")
        else [f.name]
      | _ => [f.name])
    ∧ f'.hasNeverBeenRun = false
    ∧ ∀ args2 kwargs2 r2 f'',
        f'.call args2 kwargs2 = .ok (r2, f'') →
        f''.output_names = f'.output_names := by
  obtain ⟨args', kwargs', hpre, hpost⟩ :=
    LabelledFunction.call_ok_elim f args kwargs r f' hcall
  obtain ⟨hr, hf'⟩ :=
    LabelledFunction.postprocess_first_unknown f _ r f' hnew hnames hpost
  rw [← hr] at hf'
  subst hf'
  refine ⟨?_, rfl, ?_⟩
  · cases r <;> rfl
  · intro args2 kwargs2 r2 f'' hcall2
    obtain ⟨a2, k2, hpre2, hpost2⟩ :=
      LabelledFunction.call_ok_elim _ _ _ _ _ hcall2
    rw [LabelledFunction.postprocess_of_hasRun _ _ rfl] at hpost2
    cases hpost2
    rfl

/-- A function with unknown output names returning a 3-tuple (the spec's
`cube` shape). -/
def c4demo : LabelledFunction :=
  { name := "cube", input_names := ["x"], output_names := Option.none,
    default_values := [],
    function := fun _ _ => .tuple [.int 1, .int 2, .int 3] }

/-- `c4demo` after its first call: names synthesized and frozen. -/
def c4demoAfter : LabelledFunction :=
  { c4demo with hasNeverBeenRun := false,
                output_names := some ["cube[0]", "cube[1]", "cube[2]"] }

theorem output_inference_first_call_witness :
    c4demoAfter.output_names = some ["cube[0]", "cube[1]", "cube[2]"]
    ∧ c4demoAfter.hasNeverBeenRun = false := by
  have h := output_inference_first_call c4demo [] [("x", PyObj.int 0)]
    (.tuple [.int 1, .int 2, .int 3]) c4demoAfter rfl rfl rfl
  exact ⟨h.1, h.2.1⟩

/-! ## Claim C5 — output-shape checking happens only on the first call -/

/-- A function with declared output names `y, z` whose result arity depends
on its argument: a pair at `x = 1`, a triple otherwise. -/
def cexShapeF : LabelledFunction :=
  { name := "h", input_names := ["x"], output_names := some ["y", "z"],
    default_values := [],
    function := fun _ m =>
      match m "x" with
      | some (.int 1) => .tuple [.int 1, .int 2]
      | _ => .tuple [.int 7, .int 8, .int 9] }

/-- `cexShapeF` after its first (consistent) call. -/
def cexShapeF1 : LabelledFunction := { cexShapeF with hasNeverBeenRun := false }

/-- **C5, counterexample.**  After the output names `y, z` are frozen by a
consistent first call, a second invocation returning a sequence of
*different arity* (a 3-tuple against 2 names) does **not** raise an
output-inconsistency error: it returns normally, because
`_postprocess_outputs` only checks while `_has_never_been_run` is set. -/
theorem output_check_not_repeated_cex :
    cexShapeF.call [] [("x", .int 1)] = .ok (.tuple [.int 1, .int 2], cexShapeF1)
    ∧ cexShapeF1.call [] [("x", .int 2)]
        = .ok (.tuple [.int 7, .int 8, .int 9], cexShapeF1)
    ∧ cexShapeF1.output_names = some ["y", "z"] :=
  ⟨rfl, rfl, rfl⟩

/-- **C5, amended.**  The shape check runs only on the *first* invocation:
with declared output names, a first call whose result is `None`, a
sequence (tuple or list) or a mapping and whose outputs-as-dict key set
does not match the declared names raises the output-inconsistency error
naming the callable; once `_has_never_been_run` is cleared, a call can fail
only in preprocessing and never raises the inconsistency error.  (The
first conjunct is restricted to the result shapes on which
`_output_as_dict` computes a key set at all: for another value against
several declared names the Python code raises `zip`'s `TypeError`
instead.) -/
theorem output_check_first_call_only (f : LabelledFunction) (args : List PyObj)
    (kwargs : SDict PyObj) :
    (∀ names args' kwargs',
      f.output_names = some names →
      f.hasNeverBeenRun = true →
      f.preprocessInputs args kwargs = .ok (args', kwargs') →
      (f.function args' (SDict.get kwargs') = .none
        ∨ LabelledFunction.isTupleOrList (f.function args' (SDict.get kwargs')) = true
        ∨ (∃ d, f.function args' (SDict.get kwargs') = .dict d)) →
      (SDict.keys (LabelledFunction.outputAsDict names
          (f.function args' (SDict.get kwargs')))).toFinset ≠ names.toFinset →
      f.call args kwargs = .error (.inconsistentOutput f.name))
    ∧ (f.hasNeverBeenRun = false →
        ∀ nm, f.call args kwargs ≠ .error (.inconsistentOutput nm)) := by
  constructor
  · intro names args' kwargs' hnames hrun hpre _ hbad
    rw [LabelledFunction.call_of_preprocess_ok f args kwargs args' kwargs' hpre,
        LabelledFunction.postprocess_first_known f _ names hrun hnames, if_pos hbad]
  · intro hrun nm hcontra
    rcases hpre : f.preprocessInputs args kwargs with e | ⟨args', kwargs'⟩
    · rw [LabelledFunction.call_of_preprocess_error f args kwargs e hpre] at hcontra
      cases hcontra
      rcases preprocess_error_cases _ _ _ _ _ _ _ hpre with ⟨s, hs⟩ | ⟨s, hs⟩ <;>
        cases hs
    · rw [LabelledFunction.call_of_preprocess_ok f args kwargs args' kwargs' hpre,
          LabelledFunction.postprocess_of_hasRun f _ hrun] at hcontra
      cases hcontra

/-- A function whose one-element tuple result never matches its two
declared output names (`zip` pairs it with the first name only, so the key
set `{y}` differs from `{y, z}`). -/
def c5demo : LabelledFunction :=
  { name := "h2", input_names := ["x"], output_names := some ["y", "z"],
    default_values := [],
    function := fun _ _ => .tuple [.int 0] }

theorem output_check_first_call_only_witness :
    c5demo.call [] [("x", .int 0)] = .error (.inconsistentOutput "h2") :=
  (output_check_first_call_only c5demo [] [("x", PyObj.int 0)]).1
    ["y", "z"] [] [("x", .int 0)] rfl rfl rfl (Or.inr (Or.inl rfl)) (by decide)

/-! ## Claim C3 — missing / unexpected argument checking -/

/-- The names supplied to a call: positionally bound names, keyword names,
and names with a default value (the claim's notion of a name that "has a
supplied positional or keyword argument or a default value"). -/
def suppliedNames (f : LabelledFunction) (args : List PyObj)
    (kwargs : SDict PyObj) : Finset String :=
  (f.input_names.take args.length).toFinset ∪ (SDict.keys kwargs).toFinset
    ∪ (SDict.keys f.default_values).toFinset

/-- The `passed` set computed by `_preprocess_inputs` is exactly the
supplied names. -/
theorem passed_eq_supplied (f : LabelledFunction) (args : List PyObj)
    (kwargs : SDict PyObj) :
    (f.input_names.take args.length).toFinset
      ∪ (SDict.keys ((f.default_values.restrict
          (fun n => ¬ (f.input_names.take args.length).contains n)).update
            kwargs)).toFinset
    = suppliedNames f args kwargs := by
  ext x
  simp only [Finset.mem_union, List.mem_toFinset, suppliedNames]
  constructor
  · rintro (hx | hx)
    · exact Or.inl (Or.inl hx)
    · rcases (SDict.keys_update _ _ x).mp hx with hx | hx
      · rcases (SDict.mem_keys_restrict _ _ x).mp hx with ⟨hx1, _⟩
        exact Or.inr hx1
      · exact Or.inl (Or.inr hx)
  · rintro ((hx | hx) | hx)
    · exact Or.inl hx
    · exact Or.inr ((SDict.keys_update _ _ x).mpr (Or.inr hx))
    · by_cases hxpos : x ∈ f.input_names.take args.length
      · exact Or.inl hxpos
      · refine Or.inr ((SDict.keys_update _ _ x).mpr (Or.inl ?_))
        refine (SDict.mem_keys_restrict _ _ x).mpr ⟨hx, ?_⟩
        simp [hxpos]

/-- A callable with one required input `a`. -/
def c3cex : LabelledFunction :=
  { name := "h3", input_names := ["a"], output_names := some ["r"],
    default_values := [],
    function := fun _ _ => .int 0 }

/-- **C3, counterexample.**  When a call has both a missing required input
and an unexpected keyword (`c3cex` called with only `b=0`), the call fails
with the *missing-argument* error, not the unexpected-argument error the
claim promises for a supplied keyword that is not an input. -/
theorem argument_error_priority_cex :
    ("b" ∉ c3cex.input_names)
    ∧ errOf (c3cex.call [] [("b", .int 0)])
        = some (.missingArgument "LabelledFunction" "h3" {"a"}) :=
  ⟨by decide, by decide⟩

/-- **C3, amended.**  `_preprocess_inputs` checks missing inputs first:
if some declared input has neither a positional nor a keyword argument nor
a default, the call fails with a missing-argument error carrying the
callable's name and all missing names; *otherwise*, if some supplied name
is not a declared input, the call fails with an unexpected-argument error
enumerating all offending names; otherwise the underlying function is
invoked on the resolved keyword arguments. -/
theorem argument_checking_behaviour (f : LabelledFunction) (args : List PyObj)
    (kwargs : SDict PyObj) :
    (f.input_names.toFinset \ suppliedNames f args kwargs ≠ ∅ →
      f.call args kwargs = .error (.missingArgument f.className f.name
        (f.input_names.toFinset \ suppliedNames f args kwargs)))
    ∧ (f.input_names.toFinset \ suppliedNames f args kwargs = ∅ →
       suppliedNames f args kwargs \ f.input_names.toFinset ≠ ∅ →
      f.call args kwargs = .error (.unexpectedArgument f.className f.name
        (suppliedNames f args kwargs \ f.input_names.toFinset)))
    ∧ (f.input_names.toFinset \ suppliedNames f args kwargs = ∅ →
       suppliedNames f args kwargs \ f.input_names.toFinset = ∅ →
      f.call args kwargs = LabelledFunction.postprocessOutputs f
        (f.function args (SDict.get ((f.default_values.restrict
          (fun n => ¬ (f.input_names.take args.length).contains n)).update
            kwargs)))) := by
  have hcore : f.preprocessInputs args kwargs =
      (if f.input_names.toFinset \ suppliedNames f args kwargs ≠ ∅ then
        .error (.missingArgument f.className f.name
          (f.input_names.toFinset \ suppliedNames f args kwargs))
      else if suppliedNames f args kwargs \ f.input_names.toFinset ≠ ∅ then
        .error (.unexpectedArgument f.className f.name
          (suppliedNames f args kwargs \ f.input_names.toFinset))
      else
        .ok (args, (f.default_values.restrict
          (fun n => ¬ (f.input_names.take args.length).contains n)).update
            kwargs)) := by
    simp only [LabelledFunction.preprocessInputs, preprocessCore,
      passed_eq_supplied f args kwargs]
  refine ⟨?_, ?_, ?_⟩
  · intro hm
    apply LabelledFunction.call_of_preprocess_error
    rw [hcore, if_pos hm]
  · intro hm hs
    apply LabelledFunction.call_of_preprocess_error
    rw [hcore, if_neg (by simpa using hm), if_pos hs]
  · intro hm hs
    apply LabelledFunction.call_of_preprocess_ok
    rw [hcore, if_neg (by simpa using hm), if_neg (by simpa using hs)]

/-- A callable used to exercise the unexpected-argument branch with two
offending names at once. -/
def c3demo : LabelledFunction :=
  { name := "h4", input_names := ["a"], output_names := some ["r"],
    default_values := [],
    function := fun _ _ => .int 0 }

theorem argument_checking_behaviour_witness :
    c3demo.call [] [("a", .int 0), ("b", .int 1), ("c", .int 2)]
      = .error (.unexpectedArgument "LabelledFunction" "h4"
          (suppliedNames c3demo [] [("a", .int 0), ("b", .int 1), ("c", .int 2)]
            \ c3demo.input_names.toFinset)) :=
  (argument_checking_behaviour c3demo []
      [("a", .int 0), ("b", .int 1), ("c", .int 2)]).2.1 (by decide) (by decide)

/-! ## Claim C8 — the `default_values ⊆ input_names` invariant -/

/-- The data-model invariant asserted by
`AbstractLabelledCallable.__init__`: every key of `default_values` is an
input name. -/
def defaultsInv (f : LabelledFunction) : Prop :=
  ∀ k ∈ SDict.keys f.default_values, k ∈ f.input_names

/-- Removing entries keeps the remaining keys. -/
theorem SDict.mem_keys_erase {β : Type} (d : SDict β) (k m : String)
    (h : m ∈ SDict.keys (SDict.erase d k)) : m ∈ SDict.keys d := by
  have he : SDict.erase d k = SDict.restrict d (fun s => s ≠ k) := rfl
  rw [he] at h
  exact ((SDict.mem_keys_restrict d _ m).mp h).1

/-- A callable with a single input and no default. -/
def c8cex : LabelledFunction :=
  { name := "h5", input_names := ["a"], output_names := some ["r"],
    default_values := [],
    function := fun _ _ => .int 0 }

/-- **C8, counterexample.**  `set_default` does not re-check the invariant:
setting a default for a name that is not an input (`b` on a callable with
single input `a`) yields a callable whose `default_values` keys are *not*
a subset of its `input_names`, although the original satisfied the
invariant. -/
theorem set_default_invariant_cex :
    defaultsInv c8cex
    ∧ "b" ∈ SDict.keys ((c8cex.set_default [("b", .int 0)]).default_values)
    ∧ "b" ∉ (c8cex.set_default [("b", .int 0)]).input_names := by
  refine ⟨?_, by decide, by decide⟩
  intro k hk
  exact absurd hk (List.not_mem_nil k)

/-- **C8, amended.**  For a callable satisfying the invariant: `rename`,
`reset_default`, `hide` and `fix` preserve it unconditionally (when they
succeed), and `set_default` preserves it provided the new default names are
input names (the operation's contract, spec §4.1: "add/replace default
values for a subset of inputs"). -/
theorem default_keys_invariant_preservation (f : LabelledFunction)
    (hf : defaultsInv f) :
    (∀ nm, defaultsInv (f.rename nm))
    ∧ (∀ nv, (∀ k ∈ SDict.keys nv, k ∈ f.input_names) →
        defaultsInv (f.set_default nv))
    ∧ (∀ names g, f.reset_default names = .ok g → defaultsInv g)
    ∧ (∀ names g, f.hide names = .ok g → defaultsInv g)
    ∧ (∀ nv, defaultsInv (f.fix nv)) := by
  have hfix : ∀ (f : LabelledFunction), defaultsInv f →
      ∀ nv, defaultsInv (f.fix nv) := by
    intro f hf nv k hk
    simp only [LabelledFunction.fix] at hk ⊢
    rcases (SDict.mem_keys_restrict _ _ k).mp hk with ⟨hk1, hk2⟩
    rw [List.mem_filter]
    refine ⟨hf k hk1, ?_⟩
    simpa using hk2
  have hreset : ∀ (names : List String) (f : LabelledFunction),
      defaultsInv f → ∀ g, f.reset_default names = .ok g → defaultsInv g := by
    intro names
    induction names with
    | nil =>
      intro f hf g h
      simp only [LabelledFunction.reset_default] at h
      cases h
      exact hf
    | cons n rest ih =>
      intro f hf g h
      simp only [LabelledFunction.reset_default] at h
      by_cases hn : n ∈ SDict.keys f.default_values
      · rw [if_pos hn] at h
        refine ih _ ?_ g h
        intro k hk
        exact hf k (SDict.mem_keys_erase _ n k hk)
      · rw [if_neg hn] at h
        cases h
  refine ⟨?_, ?_, ?_, ?_, hfix f hf⟩
  · intro nm k hk
    exact hf k hk
  · intro nv hnv k hk
    simp only [LabelledFunction.set_default] at hk
    rcases (SDict.keys_update _ _ k).mp hk with hk | hk
    · exact hf k hk
    · exact hnv k hk
  · intro names g h
    exact hreset names f hf g h
  · intro names g h
    simp only [LabelledFunction.hide] at h
    split at h
    · cases h
    · cases h
      exact hfix f hf _

/-- A callable with input `a` defaulting to `2`. -/
def c8demo : LabelledFunction :=
  { name := "h6", input_names := ["a"], output_names := some ["r"],
    default_values := [("a", .int 2)],
    function := fun _ _ => .int 0 }

theorem default_keys_invariant_preservation_witness :
    defaultsInv (c8demo.fix [("a", .int 1)]) :=
  (default_keys_invariant_preservation c8demo
    (by intro k hk
        simp only [c8demo, SDict.keys, List.map_cons, List.map_nil,
          List.mem_cons, List.not_mem_nil, or_false] at hk
        simp [c8demo, hk])).2.2.2.2 [("a", .int 1)]

/-! ## Claim C9 — `apply_in_namespace` and its frame -/

/-- A wrapped `round`-like callable: one input `x`, one output `y`. -/
def c9cex : LabelledFunction :=
  { name := "r", input_names := ["x"], output_names := some ["y"],
    default_values := [],
    function := fun _ _ => .int 7 }

/-- **C9, counterexample.**  A namespace entry whose name is *not* among
the callable's input names does not always pass through untouched: if it
collides with an output name it is overwritten (`y: 99` becomes `y: 7`). -/
theorem apply_in_namespace_overwrites_cex :
    c9cex.applyInNamespace [("x", .int 1), ("y", .int 99)]
      = .ok ([("x", .int 1), ("y", .int 7)],
             { c9cex with hasNeverBeenRun := false })
    ∧ "y" ∉ c9cex.input_names
    ∧ SDict.get [("x", PyObj.int 1), ("y", PyObj.int 99)] "y" = some (.int 99) :=
  ⟨rfl, by decide, rfl⟩

/-- **C9, amended.**  `apply_in_namespace` extracts the sub-mapping of the
namespace restricted to the input names, invokes the callable on it as
keyword arguments, and returns the namespace updated with the
outputs-as-mapping (output keys set or overwritten); every name that is
neither an input name *nor a produced output key* keeps its original
value. -/
theorem apply_in_namespace_frame (f : LabelledFunction) (ns : SDict PyObj)
    (res : PyObj) (f' : LabelledFunction)
    (hcall : f.call [] (ns.restrict (fun n => f.input_names.contains n))
      = .ok (res, f')) :
    f.applyInNamespace ns
      = .ok (ns.update
          (LabelledFunction.outputAsDict (f'.output_names.getD []) res), f')
    ∧ (∀ k, k ∉ f.input_names →
        k ∉ SDict.keys (LabelledFunction.outputAsDict (f'.output_names.getD []) res) →
        SDict.get (ns.update
            (LabelledFunction.outputAsDict (f'.output_names.getD []) res)) k
          = SDict.get ns k)
    ∧ (∀ k v,
        SDict.lastGet (LabelledFunction.outputAsDict (f'.output_names.getD []) res) k
          = some v →
        SDict.get (ns.update
            (LabelledFunction.outputAsDict (f'.output_names.getD []) res)) k
          = some v) := by
  refine ⟨?_, ?_, ?_⟩
  · simp only [LabelledFunction.applyInNamespace]
    rw [hcall, except_ok_bind]
  · intro k _ hk2
    rw [SDict.get_update, (SDict.lastGet_eq_none_iff _ k).mpr hk2]
  · intro k v hv
    rw [SDict.get_update, hv]

theorem apply_in_namespace_frame_witness :
    c9cex.applyInNamespace [("x", .int 1), ("z", .int 5)]
      = .ok ([("x", .int 1), ("z", .int 5), ("y", .int 7)],
             { c9cex with hasNeverBeenRun := false }) :=
  (apply_in_namespace_frame c9cex [("x", .int 1), ("z", .int 5)]
    (.int 7) { c9cex with hasNeverBeenRun := false } rfl).1

/-! ## Claim C7 — inherited default values -/

theorem processInputVar_lm (ri : Bool) (fn : String) (dv : SDict PyObj)
    (s : GraphState) (var : String) :
    (processInputVar ri fn dv s var).last_modified = s.last_modified := by
  rcases h : SDict.get s.last_modified var with _ | w
  · rcases h2 : SDict.get dv var with _ | v <;> simp [processInputVar, h, h2]
  · by_cases hri : ri <;> simp [processInputVar, h, hri]

theorem processInputVar_defaults_get (ri : Bool) (fn : String)
    (dv : SDict PyObj) (s : GraphState) (var x : String) :
    SDict.get (processInputVar ri fn dv s var).default_values x =
      if x = var ∧ SDict.get s.last_modified var = Option.none
          ∧ (SDict.get dv var).isSome = true
      then SDict.get dv var
      else SDict.get s.default_values x := by
  rcases h : SDict.get s.last_modified var with _ | w
  · rcases h2 : SDict.get dv var with _ | v
    · simp [processInputVar, h, h2]
    · simp only [processInputVar, h, h2]
      rw [SDict.get_set]
      by_cases hx : x = var
      · simp [hx, h2]
      · simp [hx]
  · by_cases hri : ri <;> simp [processInputVar, h, hri]

theorem inputLoop_lm (ri : Bool) (fn : String) (dv : SDict PyObj) :
    ∀ (vars : List String) (s : GraphState),
    (vars.foldl (processInputVar ri fn dv) s).last_modified = s.last_modified := by
  intro vars
  induction vars with
  | nil => intro s; rfl
  | cons v vs ih =>
    intro s
    rw [List.foldl_cons, ih, processInputVar_lm]

theorem inputLoop_defaults_get (ri : Bool) (fn : String) (dv : SDict PyObj)
    (x : String) :
    ∀ (vars : List String) (s : GraphState),
    SDict.get (vars.foldl (processInputVar ri fn dv) s).default_values x =
      if x ∈ vars ∧ SDict.get s.last_modified x = Option.none
          ∧ (SDict.get dv x).isSome = true
      then SDict.get dv x
      else SDict.get s.default_values x := by
  intro vars
  induction vars with
  | nil => intro s; simp
  | cons v vs ih =>
    intro s
    rw [List.foldl_cons, ih, processInputVar_lm, processInputVar_defaults_get]
    by_cases hlm : SDict.get s.last_modified x = Option.none
    · by_cases hdv : (SDict.get dv x).isSome = true
      · by_cases hvs : x ∈ vs
        · rw [if_pos ⟨hvs, hlm, hdv⟩, if_pos ⟨List.mem_cons_of_mem v hvs, hlm, hdv⟩]
        · rw [if_neg (by tauto)]
          by_cases hv : x = v
          · subst hv
            rw [if_pos ⟨rfl, hlm, hdv⟩, if_pos ⟨List.mem_cons_self x vs, hlm, hdv⟩]
          · rw [if_neg (by tauto), if_neg (by
              rintro ⟨hmem, -, -⟩
              rcases List.mem_cons.mp hmem with h | h
              · exact hv h
              · exact hvs h)]
      · rw [if_neg (by tauto),
            if_neg (by rintro ⟨rfl, -, hc⟩; exact hdv hc),
            if_neg (by tauto)]
    · have hvv : ¬ (x = v ∧ SDict.get s.last_modified v = Option.none
          ∧ (SDict.get dv v).isSome = true) := by
        rintro ⟨rfl, hc, -⟩
        exact hlm hc
      rw [if_neg (by tauto), if_neg hvv, if_neg (by tauto)]

theorem processOutputVar_defaults (fn : String) (s : GraphState) (var : String) :
    (processOutputVar fn s var).default_values = s.default_values := rfl

theorem outputLoop_defaults (fn : String) :
    ∀ (vars : List String) (s : GraphState),
    (vars.foldl (processOutputVar fn) s).default_values = s.default_values := by
  intro vars
  induction vars with
  | nil => intro s; rfl
  | cons v vs ih =>
    intro s
    rw [List.foldl_cons, ih, processOutputVar_defaults]

theorem outputLoop_lm_isSome (fn x : String) :
    ∀ (vars : List String) (s : GraphState),
    (SDict.get ((vars.foldl (processOutputVar fn) s).last_modified) x).isSome = true
      ↔ ((SDict.get s.last_modified x).isSome = true ∨ x ∈ vars) := by
  intro vars
  induction vars with
  | nil => intro s; simp
  | cons v vs ih =>
    intro s
    rw [List.foldl_cons, ih]
    show ((SDict.get (SDict.set s.last_modified v fn) x).isSome = true ∨ x ∈ vs) ↔ _
    rw [SDict.get_set]
    by_cases hv : x = v
    · simp [hv]
    · simp only [hv, if_false, List.mem_cons]
      tauto

theorem graphStep_defaults_get (ri : Bool) (s : GraphState)
    (f : LabelledFunction) (x : String) :
    SDict.get (graphStep ri s f).default_values x =
      if x ∈ f.input_names ∧ SDict.get s.last_modified x = Option.none
          ∧ (SDict.get f.default_values x).isSome = true
      then SDict.get f.default_values x
      else SDict.get s.default_values x := by
  unfold graphStep
  rw [outputLoop_defaults, inputLoop_defaults_get]

theorem graphStep_lm_isSome (ri : Bool) (s : GraphState)
    (f : LabelledFunction) (x : String) :
    (SDict.get (graphStep ri s f).last_modified x).isSome = true
      ↔ ((SDict.get s.last_modified x).isSome = true ∨ x ∈ f.output_names.getD []) := by
  unfold graphStep
  rw [outputLoop_lm_isSome, inputLoop_lm]

/-- The amended claim's step-contributed default for a name: scanning the
steps in order, a step contributes its default for a name that it requires
while the name is still unproduced (not an output of an earlier step), and
the *last* such contribution wins.  `produced` carries the names already
produced before the scanned steps. -/
def lastContributedDefault (produced : String → Bool) :
    List LabelledFunction → String → Option PyObj
  | [], _ => Option.none
  | f :: fs, x =>
    match lastContributedDefault
        (fun y => produced y || (f.output_names.getD []).contains y) fs x with
    | some v => some v
    | Option.none =>
      if x ∈ f.input_names ∧ produced x = false then
        SDict.get f.default_values x
      else Option.none

theorem lastContributedDefault_congr (fs : List LabelledFunction) :
    ∀ (p q : String → Bool), (∀ y, p y = q y) →
    ∀ x, lastContributedDefault p fs x = lastContributedDefault q fs x := by
  induction fs with
  | nil => intro p q h x; rfl
  | cons f fs ih =>
    intro p q h x
    show (match lastContributedDefault
        (fun y => p y || (f.output_names.getD []).contains y) fs x with
      | some v => some v
      | Option.none =>
        if x ∈ f.input_names ∧ p x = false then
          SDict.get f.default_values x
        else Option.none) = _
    rw [ih (fun y => p y || (f.output_names.getD []).contains y)
        (fun y => q y || (f.output_names.getD []).contains y)
        (fun y => by simp only [h y]) x]
    rw [h x]
    rfl

/-- `graphStep`'s effect on the produced-name predicate, in `Bool` form. -/
theorem graphStep_lm_isSome_bool (ri : Bool) (s : GraphState)
    (f : LabelledFunction) (y : String) :
    (SDict.get (graphStep ri s f).last_modified y).isSome
      = ((SDict.get s.last_modified y).isSome
          || (f.output_names.getD []).contains y) := by
  have h1 := graphStep_lm_isSome ri s f y
  by_cases hmem : y ∈ f.output_names.getD []
  · have hc : (f.output_names.getD []).contains y = true := List.elem_iff.mpr hmem
    rw [hc, Bool.or_true, h1.mpr (Or.inr hmem)]
  · have hc : (f.output_names.getD []).contains y = false := by
      rcases hb : (f.output_names.getD []).contains y with _ | _
      · rfl
      · exact absurd (List.elem_iff.mp hb) hmem
    rw [hc, Bool.or_false]
    rcases hs : (SDict.get s.last_modified y).isSome with _ | _
    · rcases hl : (SDict.get (graphStep ri s f).last_modified y).isSome with _ | _
      · rfl
      · rcases h1.mp hl with h4 | h4
        · rw [hs] at h4
          cases h4
        · exact absurd h4 hmem
    · exact h1.mpr (Or.inl hs)

/-- `_graph`'s inherited defaults, relative to an arbitrary starting state:
the last qualifying contribution from the steps wins, falling back to the
starting state's defaults. -/
theorem get_graphFold_defaults (ri : Bool) (fs : List LabelledFunction) :
    ∀ (s : GraphState) (x : String),
    SDict.get (graphFold ri s fs).default_values x =
      match lastContributedDefault
          (fun y => (SDict.get s.last_modified y).isSome) fs x with
      | some v => some v
      | Option.none => SDict.get s.default_values x := by
  induction fs with
  | nil => intro s x; rfl
  | cons f fs ih =>
    intro s x
    show SDict.get (graphFold ri (graphStep ri s f) fs).default_values x = _
    rw [ih (graphStep ri s f) x]
    rw [lastContributedDefault_congr fs
      (fun y => (SDict.get (graphStep ri s f).last_modified y).isSome)
      (fun y => (SDict.get s.last_modified y).isSome
        || (f.output_names.getD []).contains y)
      (fun y => graphStep_lm_isSome_bool ri s f y) x]
    show _ = (match (match lastContributedDefault
          (fun y => (SDict.get s.last_modified y).isSome
            || (f.output_names.getD []).contains y) fs x with
      | some v => some v
      | Option.none =>
        if x ∈ f.input_names
            ∧ (SDict.get s.last_modified x).isSome = false then
          SDict.get f.default_values x
        else Option.none) with
      | some v => some v
      | Option.none => SDict.get s.default_values x)
    rcases hrec : lastContributedDefault
        (fun y => (SDict.get s.last_modified y).isSome
          || (f.output_names.getD []).contains y) fs x with _ | v
    · rw [graphStep_defaults_get]
      by_cases hin : x ∈ f.input_names
      · by_cases hlm : SDict.get s.last_modified x = Option.none
        · have hlmb : (SDict.get s.last_modified x).isSome = false := by
            rw [hlm]; rfl
          rcases hdv : SDict.get f.default_values x with _ | v
          · rw [if_neg (by rintro ⟨-, -, hc⟩; simp at hc), if_pos ⟨hin, hlmb⟩]
          · rw [if_pos ⟨hin, hlm, rfl⟩, if_pos ⟨hin, hlmb⟩]
        · have hlmb : ¬ ((SDict.get s.last_modified x).isSome = false) := by
            rcases hx : SDict.get s.last_modified x with _ | w
            · exact absurd hx hlm
            · simp [hx]
          rw [if_neg (by tauto), if_neg (by tauto)]
      · rw [if_neg (by tauto), if_neg (by tauto)]
    · rfl

/-- The pipeline's resolved default map: the graph-inherited defaults,
overridden by the explicit `default_values` argument when given. -/
def resolvedDefaults (ri : Bool) (funcs : List LabelledFunction)
    (dv : Option (SDict PyObj)) : SDict PyObj :=
  match dv with
  | Option.none => (graphOf ri funcs).default_values
  | some d => (graphOf ri funcs).default_values.update d

theorem mkLabelledPipeline_eq (funcs : List LabelledFunction)
    (nm : Option String) (dv : Option (SDict PyObj)) (ri : Bool) :
    mkLabelledPipeline funcs nm dv ri =
      if funcs.any (fun f => f.output_names.isNone) then .error .unknownOutputs
      else if (SDict.keys (resolvedDefaults ri funcs dv)).all
          (fun k => (graphOf ri funcs).pipe_inputs.contains k) then
        .ok { funcs := funcs, name := nm.getD (joinNames funcs),
              return_intermediate_outputs := ri,
              input_names := (graphOf ri funcs).pipe_inputs,
              output_names := (graphOf ri funcs).pipe_outputs,
              default_values := resolvedDefaults ri funcs dv }
      else .error .assertionError := by
  rcases dv with _ | d <;> rfl

theorem mk_ok_elim (funcs : List LabelledFunction) (nm : Option String)
    (dv : Option (SDict PyObj)) (ri : Bool) (p : LabelledPipeline)
    (hmk : mkLabelledPipeline funcs nm dv ri = .ok p) :
    p = { funcs := funcs, name := nm.getD (joinNames funcs),
          return_intermediate_outputs := ri,
          input_names := (graphOf ri funcs).pipe_inputs,
          output_names := (graphOf ri funcs).pipe_outputs,
          default_values := resolvedDefaults ri funcs dv }
    ∧ funcs.any (fun f => f.output_names.isNone) = false
    ∧ (SDict.keys (resolvedDefaults ri funcs dv)).all
        (fun k => (graphOf ri funcs).pipe_inputs.contains k) = true := by
  rw [mkLabelledPipeline_eq] at hmk
  by_cases h1 : funcs.any (fun f => f.output_names.isNone) = true
  · rw [if_pos h1] at hmk
    cases hmk
  · rw [if_neg h1] at hmk
    by_cases h2 : (SDict.keys (resolvedDefaults ri funcs dv)).all
        (fun k => (graphOf ri funcs).pipe_inputs.contains k) = true
    · rw [if_pos h2] at hmk
      cases hmk
      refine ⟨rfl, ?_, h2⟩
      rcases hb : funcs.any (fun f => f.output_names.isNone) with _ | _
      · rfl
      · exact absurd hb h1
    · rw [if_neg h2] at hmk
      cases hmk

/-- **C7, amended.**  For a pipeline built with an explicit `default_values`
argument, every name resolves its default to the explicit argument if it
names it, and otherwise to the default contributed by the *last* step that
requires the name while it is still unproduced (the spec's "step that first
requires it" loses when a later not-yet-satisfied consumer also declares a
default: `_graph` overwrites the entry on every qualifying step). -/
theorem pipeline_default_resolution (funcs : List LabelledFunction)
    (nm : Option String) (dv : SDict PyObj) (ri : Bool) (p : LabelledPipeline)
    (hdv : (SDict.keys dv).Nodup)
    (hmk : mkLabelledPipeline funcs nm (some dv) ri = .ok p) (x : String) :
    SDict.get p.default_values x =
      match SDict.get dv x with
      | some v => some v
      | Option.none => lastContributedDefault (fun _ => false) funcs x := by
  obtain ⟨hp, -, -⟩ := mk_ok_elim funcs nm (some dv) ri p hmk
  subst hp
  show SDict.get (resolvedDefaults ri funcs (some dv)) x = _
  unfold resolvedDefaults
  rw [SDict.get_update, SDict.lastGet_eq_get_of_nodup dv hdv]
  have hmain := get_graphFold_defaults ri funcs emptyGraphState x
  rw [lastContributedDefault_congr funcs
      (fun y => (SDict.get emptyGraphState.last_modified y).isSome)
      (fun _ => false) (fun y => rfl) x] at hmain
  have hgof : (graphOf ri funcs) = graphFold ri emptyGraphState funcs := rfl
  rw [hgof, hmain]
  rcases hx : SDict.get dv x with _ | v
  · rcases hc : lastContributedDefault (fun _ => false) funcs x with _ | w <;> rfl
  · rfl

/-- First step of the C7 example: requires `c` (default 1), produces `a`. -/
def c7f1 : LabelledFunction :=
  { name := "p1", input_names := ["c"], output_names := some ["a"],
    default_values := [("c", .int 1)],
    function := fun _ _ => .int 0 }

/-- Second step of the C7 example: requires `c` (default 2) and `a`,
produces `b`.  `c` is never produced, so both steps require it while it is
unproduced. -/
def c7f2 : LabelledFunction :=
  { name := "p2", input_names := ["c", "a"], output_names := some ["b"],
    default_values := [("c", .int 2)],
    function := fun _ _ => .int 0 }

/-- The pipeline `[c7f1, c7f2]` (no explicit defaults). -/
def c7pipe : LabelledPipeline :=
  ((mkLabelledPipeline [c7f1, c7f2] Option.none Option.none
    false).toOption).getD junkPipe

/-- **C7, counterexample.**  The step that *first* requires `c` is `c7f1`,
with default `1`; but the pipeline's default for `c` is `2`, contributed by
the *later* step `c7f2` (which also requires `c` before it is produced):
`_graph` overwrites the default map entry at every qualifying step, so the
last contribution wins, not the first. -/
theorem pipeline_default_first_step_cex :
    (mkLabelledPipeline [c7f1, c7f2] Option.none Option.none false = .ok c7pipe)
    ∧ "c" ∈ c7f1.input_names
    ∧ SDict.get c7f1.default_values "c" = some (.int 1)
    ∧ SDict.get c7pipe.default_values "c" = some (.int 2) :=
  ⟨rfl, by decide, rfl, rfl⟩

/-- The pipeline `[c7f1, c7f2]` with the explicit override `c = 5`. -/
def c7pipeW : LabelledPipeline :=
  ((mkLabelledPipeline [c7f1, c7f2] Option.none (some [("c", .int 5)])
    false).toOption).getD junkPipe

theorem pipeline_default_resolution_witness :
    SDict.get c7pipeW.default_values "c"
      = match SDict.get [("c", PyObj.int 5)] "c" with
        | some v => some v
        | Option.none => lastContributedDefault (fun _ => false) [c7f1, c7f2] "c" :=
  pipeline_default_resolution [c7f1, c7f2] Option.none [("c", PyObj.int 5)]
    false c7pipeW (by decide) rfl "c"

/-! ## Claim C1 — pipeline input/output resolution -/

theorem mem_addIfAbsent (l : List String) (v x : String) :
    x ∈ addIfAbsent l v ↔ x ∈ l ∨ x = v := by
  unfold addIfAbsent
  by_cases h : v ∈ l
  · rw [if_pos h]
    constructor
    · exact fun hx => Or.inl hx
    · rintro (hx | rfl)
      · exact hx
      · exact h
  · rw [if_neg h]
    simp [List.mem_append]

theorem processInputVar_pipeInputs (ri : Bool) (fn : String) (dv : SDict PyObj)
    (s : GraphState) (var x : String) :
    x ∈ (processInputVar ri fn dv s var).pipe_inputs ↔
      x ∈ s.pipe_inputs
      ∨ (x = var ∧ SDict.get s.last_modified var = Option.none) := by
  rcases h : SDict.get s.last_modified var with _ | w
  · rcases h2 : SDict.get dv var with _ | v <;>
      · simp [processInputVar, h, h2, mem_addIfAbsent]
  · by_cases hri : ri <;> simp [processInputVar, h, hri]

theorem inputLoop_pipeInputs (ri : Bool) (fn : String) (dv : SDict PyObj) :
    ∀ (vars : List String) (s : GraphState) (x : String),
    x ∈ (vars.foldl (processInputVar ri fn dv) s).pipe_inputs ↔
      x ∈ s.pipe_inputs
      ∨ (x ∈ vars ∧ SDict.get s.last_modified x = Option.none) := by
  intro vars
  induction vars with
  | nil => intro s x; simp
  | cons v vs ih =>
    intro s x
    rw [List.foldl_cons, ih, processInputVar_lm, processInputVar_pipeInputs]
    constructor
    · rintro ((hx | ⟨rfl, hlm⟩) | ⟨hvs, hlm⟩)
      · exact Or.inl hx
      · exact Or.inr ⟨List.mem_cons_self x vs, hlm⟩
      · exact Or.inr ⟨List.mem_cons_of_mem v hvs, hlm⟩
    · rintro (hx | ⟨hmem, hlm⟩)
      · exact Or.inl (Or.inl hx)
      · rcases List.mem_cons.mp hmem with rfl | hvs
        · exact Or.inl (Or.inr ⟨rfl, hlm⟩)
        · exact Or.inr ⟨hvs, hlm⟩

theorem outputLoop_pipeInputs (fn : String) :
    ∀ (vars : List String) (s : GraphState),
    (vars.foldl (processOutputVar fn) s).pipe_inputs = s.pipe_inputs := by
  intro vars
  induction vars with
  | nil => intro s; rfl
  | cons v vs ih =>
    intro s
    rw [List.foldl_cons, ih]
    rfl

theorem graphStep_pipeInputs (ri : Bool) (s : GraphState)
    (f : LabelledFunction) (x : String) :
    x ∈ (graphStep ri s f).pipe_inputs ↔
      x ∈ s.pipe_inputs
      ∨ (x ∈ f.input_names ∧ SDict.get s.last_modified x = Option.none) := by
  unfold graphStep
  rw [outputLoop_pipeInputs, inputLoop_pipeInputs]

theorem graphStep_lm_none (ri : Bool) (s : GraphState) (f : LabelledFunction)
    (x : String) :
    SDict.get (graphStep ri s f).last_modified x = Option.none ↔
      (SDict.get s.last_modified x = Option.none
        ∧ x ∉ f.output_names.getD []) := by
  have h1 := graphStep_lm_isSome ri s f x
  constructor
  · intro h
    rw [h] at h1
    constructor
    · rcases hs : SDict.get s.last_modified x with _ | w
      · rfl
      · exact absurd (h1.mpr (Or.inl (by rw [hs]; rfl))) (by simp)
    · intro hmem
      exact absurd (h1.mpr (Or.inr hmem)) (by simp)
  · rintro ⟨hs, hmem⟩
    rcases hg : SDict.get (graphStep ri s f).last_modified x with _ | w
    · rfl
    · rcases h1.mp (by rw [hg]; rfl) with hc | hc
      · rw [hs] at hc
        cases hc
      · exact absurd hc hmem

/-- Membership in `_graph`'s `pipe_inputs`, relative to an arbitrary
starting state: a name required by some step while produced neither before
the scan nor by an earlier scanned step. -/
theorem mem_graphFold_inputs (ri : Bool) (fs : List LabelledFunction) :
    ∀ (s : GraphState) (x : String),
    x ∈ (graphFold ri s fs).pipe_inputs ↔
      x ∈ s.pipe_inputs
      ∨ ∃ pre g post, fs = pre ++ g :: post ∧ x ∈ g.input_names
          ∧ SDict.get s.last_modified x = Option.none
          ∧ ∀ h ∈ pre, x ∉ h.output_names.getD [] := by
  induction fs with
  | nil =>
    intro s x
    show x ∈ s.pipe_inputs ↔ _
    constructor
    · exact fun hx => Or.inl hx
    · rintro (hx | ⟨pre, g, post, hsplit, -⟩)
      · exact hx
      · exact absurd hsplit (by simp)
  | cons f fs ih =>
    intro s x
    show x ∈ (graphFold ri (graphStep ri s f) fs).pipe_inputs ↔ _
    rw [ih, graphStep_pipeInputs]
    constructor
    · rintro ((hx | ⟨hin, hlm⟩) | ⟨pre, g, post, hsplit, hing, hlm', hpre⟩)
      · exact Or.inl hx
      · exact Or.inr ⟨[], f, fs, rfl, hin, hlm, by simp⟩
      · rw [graphStep_lm_none] at hlm'
        refine Or.inr ⟨f :: pre, g, post, by rw [hsplit]; rfl, hing, hlm'.1, ?_⟩
        intro h hh
        rcases List.mem_cons.mp hh with rfl | hh
        · exact hlm'.2
        · exact hpre h hh
    · rintro (hx | ⟨pre, g, post, hsplit, hing, hlm, hpre⟩)
      · exact Or.inl (Or.inl hx)
      · rcases pre with _ | ⟨p0, pre'⟩
        · rw [List.nil_append] at hsplit
          cases hsplit
          exact Or.inl (Or.inr ⟨hing, hlm⟩)
        · rw [List.cons_append] at hsplit
          cases hsplit
          refine Or.inr ⟨pre', g, post, rfl, hing, ?_, ?_⟩
          · rw [graphStep_lm_none]
            exact ⟨hlm, hpre f (List.mem_cons_self f _)⟩
          · intro h hh
            exact hpre h (List.mem_cons_of_mem f hh)

theorem processInputVar_outputs (ri : Bool) (fn : String) (dv : SDict PyObj)
    (s : GraphState) (var x : String) :
    x ∈ (processInputVar ri fn dv s var).pipe_outputs ↔
      (x ∈ s.pipe_outputs
        ∧ ¬ (ri = false ∧ x = var
              ∧ (SDict.get s.last_modified var).isSome = true)) := by
  rcases h : SDict.get s.last_modified var with _ | w
  · rcases h2 : SDict.get dv var with _ | v <;>
      · simp [processInputVar, h, h2]
  · by_cases hri : ri
    · simp [processInputVar, h, hri]
    · have hri' : ri = false := by
        rcases ri with _ | _
        · rfl
        · exact absurd rfl hri
      subst hri'
      simp only [processInputVar, h, Bool.false_eq_true, if_false]
      rw [List.mem_filter]
      constructor
      · rintro ⟨hx, hne⟩
        refine ⟨hx, ?_⟩
        rintro ⟨-, rfl, -⟩
        simp at hne
      · rintro ⟨hx, hcond⟩
        refine ⟨hx, ?_⟩
        simp only [decide_eq_true_eq]
        intro hxe
        exact hcond ⟨by simp, hxe, by simp⟩

theorem inputLoop_outputs (ri : Bool) (fn : String) (dv : SDict PyObj) :
    ∀ (vars : List String) (s : GraphState) (x : String),
    x ∈ (vars.foldl (processInputVar ri fn dv) s).pipe_outputs ↔
      (x ∈ s.pipe_outputs
        ∧ ¬ (ri = false ∧ x ∈ vars
              ∧ (SDict.get s.last_modified x).isSome = true)) := by
  intro vars
  induction vars with
  | nil => intro s x; simp
  | cons v vs ih =>
    intro s x
    rw [List.foldl_cons, ih, processInputVar_lm, processInputVar_outputs]
    constructor
    · rintro ⟨⟨hx, hv⟩, hvs⟩
      refine ⟨hx, ?_⟩
      rintro ⟨hri, hmem, hsome⟩
      rcases List.mem_cons.mp hmem with rfl | hmem
      · exact hv ⟨hri, rfl, hsome⟩
      · exact hvs ⟨hri, hmem, hsome⟩
    · rintro ⟨hx, hcond⟩
      refine ⟨⟨hx, ?_⟩, ?_⟩
      · rintro ⟨hri, rfl, hsome⟩
        exact hcond ⟨hri, List.mem_cons_self x vs, hsome⟩
      · rintro ⟨hri, hmem, hsome⟩
        exact hcond ⟨hri, List.mem_cons_of_mem v hmem, hsome⟩

theorem processOutputVar_outputs (fn : String) (s : GraphState) (var x : String) :
    x ∈ (processOutputVar fn s var).pipe_outputs ↔
      x ∈ s.pipe_outputs ∨ x = var :=
  mem_addIfAbsent s.pipe_outputs var x

theorem outputLoop_outputs (fn : String) :
    ∀ (vars : List String) (s : GraphState) (x : String),
    x ∈ (vars.foldl (processOutputVar fn) s).pipe_outputs ↔
      x ∈ s.pipe_outputs ∨ x ∈ vars := by
  intro vars
  induction vars with
  | nil => intro s x; simp
  | cons v vs ih =>
    intro s x
    rw [List.foldl_cons, ih, processOutputVar_outputs]
    constructor
    · rintro ((hx | rfl) | hvs)
      · exact Or.inl hx
      · exact Or.inr (List.mem_cons_self x vs)
      · exact Or.inr (List.mem_cons_of_mem v hvs)
    · rintro (hx | hmem)
      · exact Or.inl (Or.inl hx)
      · rcases List.mem_cons.mp hmem with rfl | hvs
        · exact Or.inl (Or.inr rfl)
        · exact Or.inr hvs

theorem graphStep_outputs (ri : Bool) (s : GraphState) (f : LabelledFunction)
    (x : String) :
    x ∈ (graphStep ri s f).pipe_outputs ↔
      (x ∈ s.pipe_outputs
        ∧ ¬ (ri = false ∧ x ∈ f.input_names
              ∧ (SDict.get s.last_modified x).isSome = true))
      ∨ x ∈ f.output_names.getD [] := by
  unfold graphStep
  rw [outputLoop_outputs, inputLoop_outputs]

/-- Membership in `_graph`'s `pipe_outputs`, relative to a starting state
whose outputs were all produced: a name produced by a scanned step and (when
intermediates are dropped) consumed by no later scanned step, or an initial
output consumed by no scanned step. -/
theorem mem_graphFold_outputs (ri : Bool) (fs : List LabelledFunction) :
    ∀ (s : GraphState) (x : String),
    (∀ y, y ∈ s.pipe_outputs → (SDict.get s.last_modified y).isSome = true) →
    (x ∈ (graphFold ri s fs).pipe_outputs ↔
      (∃ pre g post, fs = pre ++ g :: post ∧ x ∈ g.output_names.getD []
          ∧ ∀ h ∈ post, ri = true ∨ x ∉ h.input_names)
      ∨ (x ∈ s.pipe_outputs ∧ ∀ h ∈ fs, ri = true ∨ x ∉ h.input_names)) := by
  induction fs with
  | nil =>
    intro s x _
    show x ∈ s.pipe_outputs ↔ _
    constructor
    · intro hx
      exact Or.inr ⟨hx, by simp⟩
    · rintro (⟨pre, g, post, hsplit, -⟩ | ⟨hx, -⟩)
      · exact absurd hsplit (by simp)
      · exact hx
  | cons f fs ih =>
    intro s x hsub
    have hsub' : ∀ y, y ∈ (graphStep ri s f).pipe_outputs →
        (SDict.get (graphStep ri s f).last_modified y).isSome = true := by
      intro y hy
      rcases (graphStep_outputs ri s f y).mp hy with ⟨hy1, -⟩ | hy2
      · rw [graphStep_lm_isSome_bool, hsub y hy1]
        rfl
      · have hc : (f.output_names.getD []).contains y = true := List.elem_iff.mpr hy2
        rw [graphStep_lm_isSome_bool, hc, Bool.or_true]
    show x ∈ (graphFold ri (graphStep ri s f) fs).pipe_outputs ↔ _
    rw [ih (graphStep ri s f) x hsub', graphStep_outputs]
    constructor
    · rintro (⟨pre, g, post, hsplit, hout, hpost⟩ | ⟨⟨hx, hnc⟩ | hout, hall⟩)
      · exact Or.inl ⟨f :: pre, g, post, by rw [hsplit]; rfl, hout, hpost⟩
      · refine Or.inr ⟨hx, ?_⟩
        intro h hh
        rcases List.mem_cons.mp hh with rfl | hh
        · rcases hri : ri with _ | _
          · right
            intro hin
            exact hnc ⟨hri, hin, hsub x hx⟩
          · exact Or.inl rfl
        · exact hall h hh
      · exact Or.inl ⟨[], f, fs, rfl, hout, hall⟩
    · rintro (⟨pre, g, post, hsplit, hout, hpost⟩ | ⟨hx, hall⟩)
      · rcases pre with _ | ⟨p0, pre'⟩
        · rw [List.nil_append] at hsplit
          cases hsplit
          exact Or.inr ⟨Or.inr hout, hpost⟩
        · rw [List.cons_append] at hsplit
          cases hsplit
          exact Or.inl ⟨pre', g, post, rfl, hout, hpost⟩
      · refine Or.inr ⟨Or.inl ⟨hx, ?_⟩, ?_⟩
        · rintro ⟨hri, hin, -⟩
          rcases hall f (List.mem_cons_self f fs) with hc | hc
          · rw [hri] at hc
            cases hc
          · exact hc hin
        · intro h hh
          exact hall h (List.mem_cons_of_mem f hh)

/-- **C1.**  For every successfully built pipeline: a name is a resolved
pipeline input iff some step requires it and no strictly earlier step
produces it; with `return_intermediate_outputs = False` a name is a
resolved pipeline output iff some step produces it and no strictly later
step consumes it; with the flag set, iff some step produces it. -/
theorem pipeline_resolution_characterisation
    (funcs : List LabelledFunction) (nm : Option String)
    (dv : Option (SDict PyObj)) (ri : Bool) (p : LabelledPipeline)
    (hmk : mkLabelledPipeline funcs nm dv ri = .ok p) (x : String) :
    (x ∈ p.input_names ↔
      ∃ pre g post, funcs = pre ++ g :: post ∧ x ∈ g.input_names
        ∧ ∀ h ∈ pre, x ∉ h.output_names.getD [])
    ∧ (ri = false →
       (x ∈ p.output_names ↔
         ∃ pre g post, funcs = pre ++ g :: post ∧ x ∈ g.output_names.getD []
           ∧ ∀ h ∈ post, x ∉ h.input_names))
    ∧ (ri = true →
       (x ∈ p.output_names ↔ ∃ g ∈ funcs, x ∈ g.output_names.getD [])) := by
  obtain ⟨hp, -, -⟩ := mk_ok_elim funcs nm dv ri p hmk
  subst hp
  have hin := mem_graphFold_inputs ri funcs emptyGraphState x
  have hout := mem_graphFold_outputs ri funcs emptyGraphState x
    (by intro y hy; exact absurd hy (List.not_mem_nil y))
  refine ⟨?_, ?_, ?_⟩
  · show x ∈ (graphOf ri funcs).pipe_inputs ↔ _
    rw [show graphOf ri funcs = graphFold ri emptyGraphState funcs from rfl, hin]
    constructor
    · rintro (hc | ⟨pre, g, post, hsplit, hing, -, hpre⟩)
      · exact absurd hc (List.not_mem_nil x)
      · exact ⟨pre, g, post, hsplit, hing, hpre⟩
    · rintro ⟨pre, g, post, hsplit, hing, hpre⟩
      exact Or.inr ⟨pre, g, post, hsplit, hing, rfl, hpre⟩
  · intro hri
    subst hri
    show x ∈ (graphOf false funcs).pipe_outputs ↔ _
    rw [show graphOf false funcs = graphFold false emptyGraphState funcs from rfl,
        hout]
    constructor
    · rintro (⟨pre, g, post, hsplit, hog, hpost⟩ | ⟨hc, -⟩)
      · refine ⟨pre, g, post, hsplit, hog, ?_⟩
        intro h hh
        rcases hpost h hh with hc | hc
        · cases hc
        · exact hc
      · exact absurd hc (List.not_mem_nil x)
    · rintro ⟨pre, g, post, hsplit, hog, hpost⟩
      exact Or.inl ⟨pre, g, post, hsplit, hog, fun h hh => Or.inr (hpost h hh)⟩
  · intro hri
    subst hri
    show x ∈ (graphOf true funcs).pipe_outputs ↔ _
    rw [show graphOf true funcs = graphFold true emptyGraphState funcs from rfl,
        hout]
    constructor
    · rintro (⟨pre, g, post, hsplit, hog, -⟩ | ⟨hc, -⟩)
      · refine ⟨g, ?_, hog⟩
        rw [hsplit]
        exact List.mem_append_right pre (List.mem_cons_self g post)
      · exact absurd hc (List.not_mem_nil x)
    · rintro ⟨g, hg, hog⟩
      obtain ⟨pre, post, hsplit⟩ := List.append_of_mem hg
      exact Or.inl ⟨pre, g, post, hsplit, hog, fun h hh => Or.inl rfl⟩

theorem pipeline_resolution_characterisation_witness :
    "a" ∈ examplePipe.input_names ↔
      ∃ pre g post, [exampleStepF, exampleStepG] = pre ++ g :: post
        ∧ "a" ∈ g.input_names ∧ ∀ h ∈ pre, "a" ∉ h.output_names.getD [] :=
  (pipeline_resolution_characterisation [exampleStepF, exampleStepG]
    Option.none Option.none false examplePipe rfl "a").1

/-! ## Claim C6 — partial application (`fix`) on a pipeline

`LabelledPipeline.fix` decides which steps to fix *by function name*
(through `_which_input_is_used_by_this_function`, keyed on `f.name`), so a
pipeline in which two different steps share a name mis-applies the fix: the
counterexample below fixes a *post-production* consumer of `x` because it
shares its name with the pre-production consumer.  The amended claim
therefore requires pairwise distinct step names (and fresh, known-output
steps), and is proved in full generality below. -/

/-- Step `A` (first occurrence): `y = x`. -/
def c6a1 : LabelledFunction :=
  { name := "A", input_names := ["x"], output_names := some ["y"],
    default_values := [],
    function := fun _ m =>
      match m "x" with
      | some w => w
      | Option.none => .none }

/-- Step `B`: `x = y + 1` (re-produces the pipeline input `x`). -/
def c6b : LabelledFunction :=
  { name := "B", input_names := ["y"], output_names := some ["x"],
    default_values := [],
    function := fun _ m =>
      match m "y" with
      | some (.int k) => .int (k + 1)
      | _ => .none }

/-- Step `A` (second occurrence, same name as `c6a1`): `z = 10 * x`,
consuming the `x` produced by `B`. -/
def c6a3 : LabelledFunction :=
  { name := "A", input_names := ["x"], output_names := some ["z"],
    default_values := [],
    function := fun _ m =>
      match m "x" with
      | some (.int k) => .int (10 * k)
      | _ => .none }

/-- The pipeline `[A, B, A]` with a duplicated step name. -/
def c6pipe : LabelledPipeline :=
  ((mkLabelledPipeline [c6a1, c6b, c6a3] Option.none Option.none
    false).toOption).getD junkPipe

/-- `c6pipe.fix(x=7)`. -/
def c6fixed : LabelledPipeline :=
  ((c6pipe.fix [("x", .int 7)]).toOption).getD junkPipe

/-- **C6, counterexample.**  `x` is a pipeline input of `c6pipe`; fixing
`x=7` also fixes the *second* step named `A`, which in the original
pipeline reads the `x` re-produced by `B`.  Calling the fixed pipeline with
no arguments yields `{x: 8, z: 70}`, while calling the original with `x=7`
yields `{z: 80}` — different mappings (already at the key `z`). -/
theorem pipeline_fix_duplicate_names_cex :
    (mkLabelledPipeline [c6a1, c6b, c6a3] Option.none Option.none false
      = .ok c6pipe)
    ∧ "x" ∈ c6pipe.input_names
    ∧ (c6pipe.fix [("x", .int 7)] = .ok c6fixed)
    ∧ c6fixed.callValue [] = .ok [("x", .int 8), ("z", .int 70)]
    ∧ c6pipe.callValue [("x", .int 7)] = .ok [("z", .int 80)]
    ∧ SDict.get [("x", PyObj.int 8), ("z", PyObj.int 70)] "z"
        ≠ SDict.get [("z", PyObj.int 80)] "z" := by
  refine ⟨rfl, by decide, rfl, rfl, rfl, ?_⟩
  intro h
  simp [SDict.get] at h

/-! ### Dict lemmas for the `fix` equivalence -/

namespace SDict

variable {β : Type}

theorem keys_set_eq (d : SDict β) (k : String) (v : β) :
    keys (set d k v) = if k ∈ keys d then keys d else keys d ++ [k] := by
  induction d with
  | nil => simp [set]
  | cons p d ih =>
    show keys (if p.1 = k then (k, v) :: d else p :: set d k v) = _
    by_cases hp : p.1 = k
    · have hmem : k ∈ keys (p :: d) := by
        rw [keys_cons, hp]
        exact List.mem_cons_self k _
      rw [if_pos hp, if_pos hmem, keys_cons, keys_cons, hp]
    · have hkp : ¬ (k = p.1) := fun h => hp h.symm
      rw [if_neg hp, keys_cons, ih]
      by_cases hk : k ∈ keys d
      · have hmem : k ∈ keys (p :: d) := by
          rw [keys_cons]
          exact List.mem_cons_of_mem _ hk
        rw [if_pos hk, if_pos hmem, keys_cons]
      · have hmem : ¬ k ∈ keys (p :: d) := by
          rw [keys_cons]
          intro hc
          rcases List.mem_cons.mp hc with h | h
          · exact hkp h
          · exact hk h
        rw [if_neg hk, if_neg hmem, keys_cons, List.cons_append]

theorem nodup_keys_set (d : SDict β) (k : String) (v : β)
    (h : (keys d).Nodup) : (keys (set d k v)).Nodup := by
  rw [keys_set_eq]
  by_cases hk : k ∈ keys d
  · simp [hk, h]
  · simp only [hk, if_false]
    rw [List.nodup_append]
    exact ⟨h, List.nodup_singleton k, by simpa using hk⟩

theorem nodup_keys_update (d e : SDict β) (h : (keys d).Nodup) :
    (keys (update d e)).Nodup := by
  induction e generalizing d with
  | nil => exact h
  | cons p e ih =>
    show (keys (update (set d p.1 p.2) e)).Nodup
    exact ih _ (nodup_keys_set d p.1 p.2 h)

theorem nodup_keys_restrict (d : SDict β) (p : String → Bool)
    (h : (keys d).Nodup) : (keys (restrict d p)).Nodup := by
  induction d with
  | nil => exact h
  | cons q d ih =>
    simp only [keys_cons, List.nodup_cons] at h
    by_cases hq : p q.1
    · have : restrict (q :: d) p = q :: restrict d p := by
        unfold restrict
        exact List.filter_cons_of_pos hq
      rw [this]
      simp only [keys_cons, List.nodup_cons]
      refine ⟨fun hc => h.1 ?_, ih h.2⟩
      exact ((mem_keys_restrict d p q.1).mp hc).1
    · have : restrict (q :: d) p = restrict d p := by
        unfold restrict
        exact List.filter_cons_of_neg (by simpa using hq)
      rw [this]
      exact ih h.2

/-- `get` of an `update` of nodup-keyed maps. -/
theorem get_update_nodup (d e : SDict β) (he : (keys e).Nodup) (m : String) :
    get (update d e) m =
      match get e m with
      | some v => some v
      | Option.none => get d m := by
  rw [get_update, lastGet_eq_get_of_nodup e he]

theorem restrict_congr (d : SDict β) (p q : String → Bool)
    (h : ∀ m, p m = q m) : restrict d p = restrict d q := by
  unfold restrict
  exact List.filter_congr (fun x _ => by rw [h x.1])

theorem restrict_true (d : SDict β) (p : String → Bool)
    (h : ∀ m, p m = true) : restrict d p = d := by
  induction d with
  | nil => rfl
  | cons q d ih =>
    have h1 : restrict (q :: d) p = q :: restrict d p := by
      unfold restrict
      exact List.filter_cons_of_pos (h q.1)
    rw [h1, ih]

/-- Restricting away a key commutes with setting a different key. -/
theorem restrict_set_ne (d : SDict β) (p : String → Bool) (k : String) (v : β)
    (hk : p k = true) :
    restrict (set d k v) p = set (restrict d p) k v := by
  induction d with
  | nil =>
    show restrict [(k, v)] p = [(k, v)]
    have h1 : restrict [(k, v)] p = (k, v) :: restrict [] p := by
      unfold restrict
      exact List.filter_cons_of_pos hk
    rw [h1]
    rfl
  | cons q d ih =>
    show restrict (if q.1 = k then (k, v) :: d else q :: set d k v) p = _
    by_cases hq : q.1 = k
    · subst hq
      rw [if_pos rfl]
      have h1 : restrict ((q.1, v) :: d) p = (q.1, v) :: restrict d p := by
        unfold restrict
        exact List.filter_cons_of_pos (by simpa using hk)
      rw [h1]
      have h2 : restrict (q :: d) p = q :: restrict d p := by
        unfold restrict
        exact List.filter_cons_of_pos (by simpa using hk)
      rw [h2]
      show _ = (if q.1 = q.1 then (q.1, v) :: restrict d p else _)
      rw [if_pos rfl]
    · rw [if_neg hq]
      by_cases hpq : p q.1
      · have h1 : restrict (q :: set d k v) p = q :: restrict (set d k v) p := by
          unfold restrict
          exact List.filter_cons_of_pos hpq
        have h2 : restrict (q :: d) p = q :: restrict d p := by
          unfold restrict
          exact List.filter_cons_of_pos hpq
        rw [h1, h2, ih]
        show _ = (if q.1 = k then (k, v) :: restrict d p else q :: set (restrict d p) k v)
        rw [if_neg hq]
      · have h1 : restrict (q :: set d k v) p = restrict (set d k v) p := by
          unfold restrict
          exact List.filter_cons_of_neg (by simpa using hpq)
        have h2 : restrict (q :: d) p = restrict d p := by
          unfold restrict
          exact List.filter_cons_of_neg (by simpa using hpq)
        rw [h1, h2, ih]

/-- Restricting away the very key being set erases the set. -/
theorem restrict_set_self (d : SDict β) (p : String → Bool) (k : String) (v : β)
    (hk : p k = false) :
    restrict (set d k v) p = restrict d p := by
  induction d with
  | nil =>
    show restrict [(k, v)] p = restrict [] p
    unfold restrict
    rw [List.filter_cons_of_neg (by simp [hk])]
  | cons q d ih =>
    show restrict (if q.1 = k then (k, v) :: d else q :: set d k v) p = _
    by_cases hq : q.1 = k
    · subst hq
      have h1 : restrict ((q.1, v) :: d) p = restrict d p := by
        unfold restrict
        exact List.filter_cons_of_neg (by simp [hk])
      have h2 : restrict (q :: d) p = restrict d p := by
        unfold restrict
        exact List.filter_cons_of_neg (by simp [hk])
      rw [if_pos rfl, h1, h2]
    · rw [if_neg hq]
      by_cases hpq : p q.1
      · have h1 : restrict (q :: set d k v) p = q :: restrict (set d k v) p := by
          unfold restrict
          exact List.filter_cons_of_pos hpq
        have h2 : restrict (q :: d) p = q :: restrict d p := by
          unfold restrict
          exact List.filter_cons_of_pos hpq
        rw [h1, h2, ih]
      · have h1 : restrict (q :: set d k v) p = restrict (set d k v) p := by
          unfold restrict
          exact List.filter_cons_of_neg (by simpa using hpq)
        have h2 : restrict (q :: d) p = restrict d p := by
          unfold restrict
          exact List.filter_cons_of_neg (by simpa using hpq)
        rw [h1, h2, ih]

/-- Lookup-equal dicts have the same key membership. -/
theorem mem_keys_of_get_congr (d e : SDict β)
    (h : ∀ m, get d m = get e m) (m : String) :
    m ∈ keys d ↔ m ∈ keys e := by
  rw [← Decidable.not_iff_not, ← get_eq_none_iff, ← get_eq_none_iff, h m]

end SDict

/-- `addIfAbsent` commutes with filtering away a different name. -/
theorem addIfAbsent_filter (l : List String) (n x : String) (h : x ≠ n) :
    addIfAbsent (l.filter (fun m => m ≠ n)) x
      = (addIfAbsent l x).filter (fun m => m ≠ n) := by
  unfold addIfAbsent
  by_cases hx : x ∈ l
  · rw [if_pos hx, if_pos (List.mem_filter.mpr ⟨hx, by simpa using h⟩)]
  · rw [if_neg hx, if_neg (fun hc => hx (List.mem_filter.mp hc).1),
      List.filter_append]
    rw [List.filter_cons_of_pos (by simpa using h)]
    rfl

/-- Adding `n` itself is invisible through the `≠ n` filter. -/
theorem addIfAbsent_filter_self (l : List String) (n : String) :
    (addIfAbsent l n).filter (fun m => m ≠ n) = l.filter (fun m => m ≠ n) := by
  unfold addIfAbsent
  by_cases hn : n ∈ l
  · rw [if_pos hn]
  · rw [if_neg hn, List.filter_append, List.filter_cons_of_neg (by simp)]
    simp

/-! ### Preprocessing correspondence -/

/-- Core-level version of `passed_eq_supplied`. -/
theorem passedCore_eq (ins : List String) (dvs : SDict PyObj)
    (args : List PyObj) (kwargs : SDict PyObj) :
    (ins.take args.length).toFinset
      ∪ (SDict.keys ((dvs.restrict
          (fun n => ¬ (ins.take args.length).contains n)).update kwargs)).toFinset
    = (ins.take args.length).toFinset ∪ (SDict.keys kwargs).toFinset
        ∪ (SDict.keys dvs).toFinset := by
  ext x
  simp only [Finset.mem_union, List.mem_toFinset]
  constructor
  · rintro (hx | hx)
    · exact Or.inl (Or.inl hx)
    · rcases (SDict.keys_update _ _ x).mp hx with hx | hx
      · rcases (SDict.mem_keys_restrict _ _ x).mp hx with ⟨hx1, _⟩
        exact Or.inr hx1
      · exact Or.inl (Or.inr hx)
  · rintro ((hx | hx) | hx)
    · exact Or.inl hx
    · exact Or.inr ((SDict.keys_update _ _ x).mpr (Or.inr hx))
    · by_cases hxpos : x ∈ ins.take args.length
      · exact Or.inl hxpos
      · refine Or.inr ((SDict.keys_update _ _ x).mpr (Or.inl ?_))
        refine (SDict.mem_keys_restrict _ _ x).mpr ⟨hx, ?_⟩
        simp [hxpos]

theorem preprocessCore_eq (cls nm : String) (ins : List String)
    (dvs : SDict PyObj) (args : List PyObj) (kwargs : SDict PyObj) :
    preprocessCore cls nm ins dvs args kwargs =
      (if ins.toFinset \ ((ins.take args.length).toFinset
            ∪ (SDict.keys kwargs).toFinset ∪ (SDict.keys dvs).toFinset) ≠ ∅ then
        .error (.missingArgument cls nm (ins.toFinset
          \ ((ins.take args.length).toFinset ∪ (SDict.keys kwargs).toFinset
              ∪ (SDict.keys dvs).toFinset)))
      else if ((ins.take args.length).toFinset ∪ (SDict.keys kwargs).toFinset
            ∪ (SDict.keys dvs).toFinset) \ ins.toFinset ≠ ∅ then
        .error (.unexpectedArgument cls nm (((ins.take args.length).toFinset
          ∪ (SDict.keys kwargs).toFinset ∪ (SDict.keys dvs).toFinset)
            \ ins.toFinset))
      else
        .ok (args, (dvs.restrict
          (fun n => ¬ (ins.take args.length).contains n)).update kwargs)) := by
  simp only [preprocessCore, passedCore_eq]

theorem preprocessCore_ok_iff (cls nm : String) (ins : List String)
    (dvs : SDict PyObj) (args : List PyObj) (kwargs : SDict PyObj)
    (args' : List PyObj) (kwargs' : SDict PyObj) :
    preprocessCore cls nm ins dvs args kwargs = .ok (args', kwargs') ↔
      (ins.toFinset \ ((ins.take args.length).toFinset
          ∪ (SDict.keys kwargs).toFinset ∪ (SDict.keys dvs).toFinset) = ∅
       ∧ ((ins.take args.length).toFinset ∪ (SDict.keys kwargs).toFinset
          ∪ (SDict.keys dvs).toFinset) \ ins.toFinset = ∅
       ∧ args' = args
       ∧ kwargs' = (dvs.restrict
          (fun n => ¬ (ins.take args.length).contains n)).update kwargs) := by
  rw [preprocessCore_eq]
  by_cases hm : ins.toFinset \ ((ins.take args.length).toFinset
      ∪ (SDict.keys kwargs).toFinset ∪ (SDict.keys dvs).toFinset) = ∅
  · rw [if_neg (by simpa using hm)]
    by_cases hs : ((ins.take args.length).toFinset ∪ (SDict.keys kwargs).toFinset
        ∪ (SDict.keys dvs).toFinset) \ ins.toFinset = ∅
    · rw [if_neg (by simpa using hs)]
      constructor
      · intro h
        cases h
        exact ⟨hm, hs, rfl, rfl⟩
      · rintro ⟨-, -, rfl, rfl⟩
        rfl
    · rw [if_pos hs]
      constructor
      · intro h
        cases h
      · rintro ⟨-, hc, -, -⟩
        exact absurd hc hs
  · rw [if_pos hm]
    constructor
    · intro h
      cases h
    · rintro ⟨hc, -⟩
      exact absurd hc hm

/-- With no positional arguments the positionally-protected defaults are
just the defaults. -/
theorem restrict_take_nil (dvs : SDict PyObj) (ins : List String) :
    dvs.restrict (fun n => ¬ (ins.take (List.length ([] : List PyObj))).contains n)
      = dvs :=
  SDict.restrict_true dvs _ (fun _ => rfl)

theorem get_restrict_contains {β : Type} (d : SDict β) (l : List String)
    (m : String) :
    SDict.get (d.restrict (fun x => l.contains x)) m =
      if m ∈ l then SDict.get d m else Option.none := by
  rw [SDict.get_restrict]
  by_cases h : m ∈ l
  · rw [if_pos (List.elem_iff.mpr h), if_pos h]
  · have : l.contains m = false := by
      rcases hb : l.contains m with _ | _
      · rfl
      · exact absurd (List.elem_iff.mp hb) h
    rw [this, if_neg h]
    rfl

namespace LabelledFunction

/-- Calling with lookup-equal keyword dicts gives the same outcome (a
Python call binds keyword arguments by name). -/
theorem call_get_congr (f : LabelledFunction) (k1 k2 : SDict PyObj)
    (h1 : (SDict.keys k1).Nodup) (h2 : (SDict.keys k2).Nodup)
    (hrel : ∀ m, SDict.get k1 m = SDict.get k2 m)
    (r : PyObj) (g : LabelledFunction)
    (hc : f.call [] k2 = .ok (r, g)) :
    f.call [] k1 = .ok (r, g) := by
  have hkeys : ∀ m, m ∈ SDict.keys k1 ↔ m ∈ SDict.keys k2 :=
    SDict.mem_keys_of_get_congr k1 k2 hrel
  have hkfs : (SDict.keys k1).toFinset = (SDict.keys k2).toFinset := by
    ext m
    simp only [List.mem_toFinset]
    exact hkeys m
  obtain ⟨a2, kk2, hpre2, hpost2⟩ := call_ok_elim f [] k2 r g hc
  rw [preprocessInputs, preprocessCore_ok_iff] at hpre2
  obtain ⟨hm2, hs2, ha2, hkk2⟩ := hpre2
  subst ha2
  have hpre1 : f.preprocessInputs [] k1
      = .ok ([], (f.default_values.restrict
        (fun n => ¬ (f.input_names.take (List.length ([] : List PyObj))).contains n)).update k1) := by
    rw [preprocessInputs, preprocessCore_ok_iff]
    rw [hkfs]
    exact ⟨hm2, hs2, rfl, rfl⟩
  rw [call_of_preprocess_ok f [] k1 _ _ hpre1]
  rw [restrict_take_nil] at hkk2 ⊢
  subst hkk2
  have hfun : (SDict.get (f.default_values.update k1))
      = (SDict.get (f.default_values.update k2)) := by
    funext m
    rw [SDict.get_update, SDict.get_update,
        SDict.lastGet_eq_get_of_nodup k1 h1, SDict.lastGet_eq_get_of_nodup k2 h2,
        hrel m]
  rw [hfun]
  exact hpost2

/-- Calling the original on a map that binds `n` to `v` agrees step-by-step
with calling the `fix`ed callable on the map without `n`. -/
theorem call_fix_congr (f : LabelledFunction) (n : String) (v : PyObj)
    (names : List String) (kO kF : SDict PyObj)
    (hnames : f.output_names = some names)
    (hfresh : f.hasNeverBeenRun = true)
    (hO : (SDict.keys kO).Nodup) (hF : (SDict.keys kF).Nodup)
    (hrel : ∀ m, m ≠ n → SDict.get kO m = SDict.get kF m)
    (hOn : SDict.get kO n = some v) (hFn : SDict.get kF n = Option.none)
    (hnin : n ∈ f.input_names)
    (r : PyObj) (g : LabelledFunction)
    (hc : (f.fix [(n, v)]).call [] kF = .ok (r, g)) :
    f.call [] kO = .ok (r, { f with hasNeverBeenRun := false })
    ∧ g = { f.fix [(n, v)] with hasNeverBeenRun := false }
    ∧ (SDict.keys (outputAsDict names r)).toFinset = names.toFinset := by
  have hmemO : ∀ m, m ∈ SDict.keys kO ↔ (m = n ∨ (m ≠ n ∧ m ∈ SDict.keys kF)) := by
    intro m
    by_cases hm : m = n
    · subst hm
      constructor
      · intro _
        exact Or.inl rfl
      · intro _
        rw [← SDict.get_isSome_iff, hOn]
        rfl
    · rw [← SDict.get_isSome_iff, hrel m hm, SDict.get_isSome_iff]
      constructor
      · intro h
        exact Or.inr ⟨hm, h⟩
      · rintro (h | ⟨-, h⟩)
        · exact absurd h hm
        · exact h
  have hnF : n ∉ SDict.keys kF := by
    rw [← SDict.get_isSome_iff, hFn]
    simp
  have hfixins : ∀ m, m ∈ (f.fix [(n, v)]).input_names
      ↔ (m ∈ f.input_names ∧ m ≠ n) := by
    intro m
    show m ∈ f.input_names.filter _ ↔ _
    rw [List.mem_filter]
    have hk1 : SDict.keys [(n, v)] = [n] := rfl
    constructor
    · rintro ⟨h1, h2⟩
      refine ⟨h1, fun hc => ?_⟩
      rw [decide_eq_true_eq, hk1] at h2
      exact h2 (by rw [hc]; exact List.mem_singleton_self n)
    · rintro ⟨h1, h2⟩
      refine ⟨h1, ?_⟩
      rw [decide_eq_true_eq, hk1]
      intro hc
      exact h2 (List.mem_singleton.mp hc)
  have hfixdvs : ∀ m, m ∈ SDict.keys (f.fix [(n, v)]).default_values
      ↔ (m ∈ SDict.keys f.default_values ∧ m ≠ n) := by
    intro m
    have h0 : (f.fix [(n, v)]).default_values
        = f.default_values.restrict
            (fun nn => ¬ (SDict.keys [(n, v)]).contains nn) := rfl
    rw [h0, SDict.mem_keys_restrict]
    have hk1 : SDict.keys [(n, v)] = [n] := rfl
    constructor
    · rintro ⟨h1, h2⟩
      refine ⟨h1, fun hc => ?_⟩
      rw [decide_eq_true_eq, hk1] at h2
      exact h2 (List.elem_iff.mpr (by rw [hc]; exact List.mem_singleton_self n))
    · rintro ⟨h1, h2⟩
      refine ⟨h1, ?_⟩
      rw [decide_eq_true_eq, hk1]
      intro hc
      exact h2 (List.mem_singleton.mp (List.elem_iff.mp hc))
  obtain ⟨a2, kk2, hpre2, hpost2⟩ := call_ok_elim _ [] kF r g hc
  rw [preprocessInputs, preprocessCore_ok_iff] at hpre2
  obtain ⟨hm2, hs2, ha2, hkk2⟩ := hpre2
  subst ha2
  rw [restrict_take_nil] at hkk2
  -- the original preprocessing succeeds as well
  have hm1 : f.input_names.toFinset \ ((f.input_names.take (List.length ([] : List PyObj))).toFinset
      ∪ (SDict.keys kO).toFinset ∪ (SDict.keys f.default_values).toFinset) = ∅ := by
    rw [Finset.sdiff_eq_empty_iff_subset]
    intro m hmem
    rw [List.mem_toFinset] at hmem
    by_cases hmn : m = n
    · subst hmn
      simp only [Finset.mem_union, List.mem_toFinset]
      refine Or.inl (Or.inr ?_)
      exact (hmemO m).mpr (Or.inl rfl)
    · have := Finset.sdiff_eq_empty_iff_subset.mp hm2
      have hmem2 : m ∈ (f.fix [(n, v)]).input_names.toFinset := by
        rw [List.mem_toFinset, hfixins]
        exact ⟨hmem, hmn⟩
      have := this hmem2
      simp only [Finset.mem_union, List.mem_toFinset] at this ⊢
      rcases this with (h | h) | h
      · exact absurd h (by simp)
      · exact Or.inl (Or.inr ((hmemO m).mpr (Or.inr ⟨hmn, h⟩)))
      · rw [hfixdvs] at h
        exact Or.inr h.1
  have hs1 : ((f.input_names.take (List.length ([] : List PyObj))).toFinset
      ∪ (SDict.keys kO).toFinset ∪ (SDict.keys f.default_values).toFinset)
        \ f.input_names.toFinset = ∅ := by
    rw [Finset.sdiff_eq_empty_iff_subset]
    intro m hmem
    simp only [Finset.mem_union, List.mem_toFinset] at hmem
    rw [List.mem_toFinset]
    rcases hmem with (h | h) | h
    · exact absurd h (by simp)
    · rcases (hmemO m).mp h with rfl | ⟨hmn, hkf⟩
      · exact hnin
      · have := Finset.sdiff_eq_empty_iff_subset.mp hs2
        have hm2' : m ∈ ((f.fix [(n, v)]).input_names.take
            (List.length ([] : List PyObj))).toFinset
            ∪ (SDict.keys kF).toFinset
            ∪ (SDict.keys (f.fix [(n, v)]).default_values).toFinset := by
          simp only [Finset.mem_union, List.mem_toFinset]
          exact Or.inl (Or.inr hkf)
        have := this hm2'
        rw [List.mem_toFinset, hfixins] at this
        exact this.1
    · have := Finset.sdiff_eq_empty_iff_subset.mp hs2
      by_cases hmn : m = n
      · subst hmn
        exact hnin
      · have hm2' : m ∈ ((f.fix [(n, v)]).input_names.take
            (List.length ([] : List PyObj))).toFinset
            ∪ (SDict.keys kF).toFinset
            ∪ (SDict.keys (f.fix [(n, v)]).default_values).toFinset := by
          simp only [Finset.mem_union, List.mem_toFinset]
          refine Or.inr ((hfixdvs m).mpr ⟨h, hmn⟩)
        have := this hm2'
        rw [List.mem_toFinset, hfixins] at this
        exact this.1
  have hpre1 : f.preprocessInputs [] kO
      = .ok ([], (f.default_values.restrict
        (fun nn => ¬ (f.input_names.take (List.length ([] : List PyObj))).contains nn)).update kO) := by
    rw [preprocessInputs, preprocessCore_ok_iff]
    exact ⟨hm1, hs1, rfl, rfl⟩
  rw [call_of_preprocess_ok f [] kO _ _ hpre1, restrict_take_nil]
  -- the two resolved keyword maps drive the wrapped function identically
  have hfun : (f.fix [(n, v)]).function [] (SDict.get kk2)
      = f.function [] (SDict.get (f.default_values.update kO)) := by
    show f.function [] _ = f.function [] _
    congr 1
    funext m
    subst hkk2
    by_cases hmn : m = n
    · subst hmn
      show (match SDict.get [(m, v)] m with
            | some w => some w
            | Option.none => SDict.get ((f.fix [(m, v)]).default_values.update kF) m) = _
      rw [show SDict.get [(m, v)] m = some v from by simp [SDict.get]]
      rw [SDict.get_update_nodup _ _ hO, hOn]
    · show (match SDict.get [(n, v)] m with
            | some w => some w
            | Option.none => SDict.get ((f.fix [(n, v)]).default_values.update kF) m) = _
      have hnm : ¬ (n = m) := fun h => hmn h.symm
      rw [show SDict.get [(n, v)] m = Option.none from by simp [SDict.get, hnm]]
      rw [SDict.get_update_nodup _ _ hO, SDict.get_update_nodup _ _ hF,
        ← hrel m hmn]
      rcases hk : SDict.get kO m with _ | w
      · show SDict.get (f.fix [(n, v)]).default_values m = SDict.get f.default_values m
        simp only [fix]
        rw [SDict.get_restrict]
        rw [if_pos (by
          simp only [decide_eq_true_eq]
          intro hc
          simp only [SDict.keys, List.map_cons, List.map_nil, List.contains_cons] at hc
          rcases Bool.or_eq_true_iff.mp hc with hc | hc
          · exact hmn (by simpa using hc)
          · simp at hc)]
      · rfl
  -- postprocessing agrees: same name, same declared outputs, same flag
  have hpp2 := postprocess_first_known (f.fix [(n, v)]) ((f.fix [(n, v)]).function [] (SDict.get kk2)) names hfresh hnames
  rw [hpp2] at hpost2
  by_cases hchk : (SDict.keys (outputAsDict names ((f.fix [(n, v)]).function [] (SDict.get kk2)))).toFinset ≠ names.toFinset
  · rw [if_pos hchk] at hpost2
    cases hpost2
  · rw [if_neg hchk] at hpost2
    rw [hfun] at hchk
    cases hpost2
    rw [postprocess_first_known f _ names hfresh hnames, if_neg hchk]
    refine ⟨by rw [hfun], rfl, ?_⟩
    rw [hfun]
    simpa using hchk

end LabelledFunction

namespace LabelledFunction

theorem applyInNamespace_ok_elim (f : LabelledFunction) (ns ns' : SDict PyObj)
    (f' : LabelledFunction)
    (h : f.applyInNamespace ns = .ok (ns', f')) :
    ∃ r, f.call [] (ns.restrict (fun m => f.input_names.contains m)) = .ok (r, f')
      ∧ ns' = ns.update (outputAsDict (f'.output_names.getD []) r) := by
  simp only [applyInNamespace] at h
  rcases hc : f.call [] (ns.restrict (fun m => f.input_names.contains m))
      with e | ⟨r, g⟩
  · rw [hc, except_error_bind] at h
    cases h
  · rw [hc, except_ok_bind] at h
    cases h
    exact ⟨r, rfl, rfl⟩

theorem applyInNamespace_of_call (f : LabelledFunction) (ns : SDict PyObj)
    (r : PyObj) (f' : LabelledFunction)
    (h : f.call [] (ns.restrict (fun m => f.input_names.contains m)) = .ok (r, f')) :
    f.applyInNamespace ns
      = .ok (ns.update (outputAsDict (f'.output_names.getD []) r), f') := by
  simp only [applyInNamespace]
  rw [h, except_ok_bind]

/-- `apply_in_namespace` on lookup-equal namespaces behaves identically. -/
theorem apply_get_congr (f : LabelledFunction) (O F : SDict PyObj)
    (hO : (SDict.keys O).Nodup) (hF : (SDict.keys F).Nodup)
    (hrel : ∀ m, SDict.get O m = SDict.get F m)
    (F' : SDict PyObj) (g : LabelledFunction)
    (happ : f.applyInNamespace F = .ok (F', g)) :
    ∃ O', f.applyInNamespace O = .ok (O', g)
      ∧ (SDict.keys O').Nodup ∧ (SDict.keys F').Nodup
      ∧ ∀ m, SDict.get O' m = SDict.get F' m := by
  obtain ⟨r, hcall, hF'⟩ := applyInNamespace_ok_elim f F F' g happ
  have hrelk : ∀ m, SDict.get (O.restrict (fun x => f.input_names.contains x)) m
      = SDict.get (F.restrict (fun x => f.input_names.contains x)) m := by
    intro m
    rw [get_restrict_contains, get_restrict_contains]
    by_cases hm : m ∈ f.input_names
    · rw [if_pos hm, if_pos hm, hrel]
    · rw [if_neg hm, if_neg hm]
  have hcall1 := call_get_congr f
    (O.restrict (fun x => f.input_names.contains x))
    (F.restrict (fun x => f.input_names.contains x))
    (SDict.nodup_keys_restrict O _ hO) (SDict.nodup_keys_restrict F _ hF)
    hrelk r g hcall
  refine ⟨O.update (outputAsDict (g.output_names.getD []) r),
    applyInNamespace_of_call f O r g hcall1,
    SDict.nodup_keys_update O _ hO, ?_, ?_⟩
  · rw [hF']
    exact SDict.nodup_keys_update F _ hF
  · intro m
    rw [hF', SDict.get_update, SDict.get_update]
    rcases SDict.lastGet (outputAsDict (g.output_names.getD []) r) m with _ | w
    · exact hrel m
    · rfl

/-- One phase-1 step of the fix bisimulation: running the (possibly fixed)
step on the `n`-less namespace agrees with running the original step on the
namespace binding `n` to `v`; afterwards either `n` was produced by this
step (and the namespaces agree everywhere) or the phase-1 relation
persists. -/
theorem apply_fix_step (f : LabelledFunction) (n : String) (v : PyObj)
    (names : List String) (O F : SDict PyObj)
    (hnames : f.output_names = some names)
    (hfresh : f.hasNeverBeenRun = true)
    (hO : (SDict.keys O).Nodup) (hF : (SDict.keys F).Nodup)
    (hrel : ∀ m, m ≠ n → SDict.get O m = SDict.get F m)
    (hOn : SDict.get O n = some v) (hFn : SDict.get F n = Option.none)
    (F' : SDict PyObj) (g2 : LabelledFunction)
    (happ : (if n ∈ f.input_names then f.fix [(n, v)] else f).applyInNamespace F
      = .ok (F', g2)) :
    ∃ O', f.applyInNamespace O = .ok (O', { f with hasNeverBeenRun := false })
      ∧ (SDict.keys O').Nodup ∧ (SDict.keys F').Nodup
      ∧ (∀ m, m ≠ n → SDict.get O' m = SDict.get F' m)
      ∧ (if n ∈ names then (∀ m, SDict.get O' m = SDict.get F' m)
         else (SDict.get O' n = some v ∧ SDict.get F' n = Option.none)) := by
  by_cases hnin : n ∈ f.input_names
  · rw [if_pos hnin] at happ
    obtain ⟨r, hcall, hF'⟩ := applyInNamespace_ok_elim _ F F' g2 happ
    have hfixins : ∀ m, m ∈ (f.fix [(n, v)]).input_names
        ↔ (m ∈ f.input_names ∧ m ≠ n) := by
      intro m
      show m ∈ f.input_names.filter _ ↔ _
      rw [List.mem_filter]
      have hk1 : SDict.keys [(n, v)] = [n] := rfl
      constructor
      · rintro ⟨h1, h2⟩
        refine ⟨h1, fun hc => ?_⟩
        rw [decide_eq_true_eq, hk1] at h2
        exact h2 (by rw [hc]; exact List.mem_singleton_self n)
      · rintro ⟨h1, h2⟩
        refine ⟨h1, ?_⟩
        rw [decide_eq_true_eq, hk1]
        intro hc
        exact h2 (List.mem_singleton.mp hc)
    have hrelk : ∀ m, m ≠ n →
        SDict.get (O.restrict (fun x => f.input_names.contains x)) m
        = SDict.get (F.restrict (fun x => (f.fix [(n, v)]).input_names.contains x)) m := by
      intro m hm
      rw [get_restrict_contains, get_restrict_contains]
      by_cases hmem : m ∈ f.input_names
      · rw [if_pos hmem, if_pos ((hfixins m).mpr ⟨hmem, hm⟩), hrel m hm]
      · rw [if_neg hmem, if_neg (fun hc => hmem ((hfixins m).mp hc).1)]
    have hkOn : SDict.get (O.restrict (fun x => f.input_names.contains x)) n
        = some v := by
      rw [get_restrict_contains, if_pos hnin, hOn]
    have hkFn : SDict.get (F.restrict (fun x => (f.fix [(n, v)]).input_names.contains x)) n
        = Option.none := by
      rw [get_restrict_contains,
        if_neg (fun hc => ((hfixins n).mp hc).2 rfl)]
    obtain ⟨hcall1, hg2, hkeysout⟩ := call_fix_congr f n v names
      (O.restrict (fun x => f.input_names.contains x))
      (F.restrict (fun x => (f.fix [(n, v)]).input_names.contains x))
      hnames hfresh
      (SDict.nodup_keys_restrict O _ hO) (SDict.nodup_keys_restrict F _ hF)
      hrelk hkOn hkFn hnin r g2 hcall
    have hgout : g2.output_names = some names := by
      rw [hg2]
      show (f.fix [(n, v)]).output_names = some names
      exact hnames
    have hO' := applyInNamespace_of_call f O r { f with hasNeverBeenRun := false }
      hcall1
    have houtO : ({ f with hasNeverBeenRun := false } : LabelledFunction).output_names
        = some names := hnames
    refine ⟨O.update (outputAsDict names r), ?_,
      SDict.nodup_keys_update O _ hO, ?_, ?_, ?_⟩
    · rw [hO', houtO]
      simp only [Option.getD_some]
    · rw [hF']
      exact SDict.nodup_keys_update F _ hF
    · intro m hm
      rw [hF', hgout]
      simp only [Option.getD_some]
      rw [SDict.get_update, SDict.get_update]
      rcases SDict.lastGet (outputAsDict names r) m with _ | w
      · exact hrel m hm
      · rfl
    · have hmemout : ∀ m, m ∈ SDict.keys (outputAsDict names r) ↔ m ∈ names := by
        intro m
        constructor
        · intro hmem
          have : m ∈ (SDict.keys (outputAsDict names r)).toFinset :=
            List.mem_toFinset.mpr hmem
          rw [hkeysout] at this
          exact List.mem_toFinset.mp this
        · intro hmem
          have : m ∈ names.toFinset := List.mem_toFinset.mpr hmem
          rw [← hkeysout] at this
          exact List.mem_toFinset.mp this
      by_cases hn : n ∈ names
      · rw [if_pos hn]
        intro m
        rw [hF', hgout]
        simp only [Option.getD_some]
        rw [SDict.get_update, SDict.get_update]
        rcases hlg : SDict.lastGet (outputAsDict names r) m with _ | w
        · by_cases hm : m = n
          · subst hm
            exfalso
            rw [SDict.lastGet_eq_none_iff] at hlg
            exact hlg ((hmemout m).mpr hn)
          · exact hrel m hm
        · rfl
      · rw [if_neg hn]
        constructor
        · rw [SDict.get_update,
            (SDict.lastGet_eq_none_iff _ n).mpr (fun hc => hn ((hmemout n).mp hc)),
            hOn]
        · rw [hF', hgout]
          simp only [Option.getD_some]
          rw [SDict.get_update,
            (SDict.lastGet_eq_none_iff _ n).mpr (fun hc => hn ((hmemout n).mp hc)),
            hFn]
  · rw [if_neg hnin] at happ
    obtain ⟨r, hcall, hF'⟩ := applyInNamespace_ok_elim f F F' g2 happ
    have hrelk : ∀ m,
        SDict.get (O.restrict (fun x => f.input_names.contains x)) m
        = SDict.get (F.restrict (fun x => f.input_names.contains x)) m := by
      intro m
      rw [get_restrict_contains, get_restrict_contains]
      by_cases hmem : m ∈ f.input_names
      · rw [if_pos hmem, if_pos hmem]
        exact hrel m (fun hc => hnin (hc ▸ hmem))
      · rw [if_neg hmem, if_neg hmem]
    have hcall1 := call_get_congr f
      (O.restrict (fun x => f.input_names.contains x))
      (F.restrict (fun x => f.input_names.contains x))
      (SDict.nodup_keys_restrict O _ hO) (SDict.nodup_keys_restrict F _ hF)
      hrelk r g2 hcall
    -- identify the post-call object
    obtain ⟨a1, kk1, hpre1, hpost1⟩ := call_ok_elim f [] _ r g2 hcall1
    rw [postprocess_first_known f _ names hfresh hnames] at hpost1
    by_cases hchk : (SDict.keys (outputAsDict names (f.function a1 (SDict.get kk1)))).toFinset
        ≠ names.toFinset
    · rw [if_pos hchk] at hpost1
      cases hpost1
    · rw [if_neg hchk] at hpost1
      have hr : r = f.function a1 (SDict.get kk1) := by
        cases hpost1
        rfl
      have hg : g2 = { f with hasNeverBeenRun := false } := by
        cases hpost1
        rfl
      subst hg
      have hgout : ({ f with hasNeverBeenRun := false } : LabelledFunction).output_names
          = some names := hnames
      have hkeysout : (SDict.keys (outputAsDict names r)).toFinset = names.toFinset := by
        rw [hr]
        simpa using hchk
      have hmemout : ∀ m, m ∈ SDict.keys (outputAsDict names r) ↔ m ∈ names := by
        intro m
        constructor
        · intro hmem
          have : m ∈ (SDict.keys (outputAsDict names r)).toFinset :=
            List.mem_toFinset.mpr hmem
          rw [hkeysout] at this
          exact List.mem_toFinset.mp this
        · intro hmem
          have : m ∈ names.toFinset := List.mem_toFinset.mpr hmem
          rw [← hkeysout] at this
          exact List.mem_toFinset.mp this
      refine ⟨O.update (outputAsDict names r), ?_,
        SDict.nodup_keys_update O _ hO, ?_, ?_, ?_⟩
      · have := applyInNamespace_of_call f O r { f with hasNeverBeenRun := false }
          hcall1
        rw [this, hgout]
        simp only [Option.getD_some]
      · rw [hF']
        exact SDict.nodup_keys_update F _ hF
      · intro m hm
        rw [hF', hgout]
        simp only [Option.getD_some]
        rw [SDict.get_update, SDict.get_update]
        rcases SDict.lastGet (outputAsDict names r) m with _ | w
        · exact hrel m hm
        · rfl
      · by_cases hn : n ∈ names
        · rw [if_pos hn]
          intro m
          rw [hF', hgout]
          simp only [Option.getD_some]
          rw [SDict.get_update, SDict.get_update]
          rcases hlg : SDict.lastGet (outputAsDict names r) m with _ | w
          · by_cases hm : m = n
            · subst hm
              exfalso
              rw [SDict.lastGet_eq_none_iff] at hlg
              exact hlg ((hmemout m).mpr hn)
            · exact hrel m hm
          · rfl
        · rw [if_neg hn]
          constructor
          · rw [SDict.get_update,
              (SDict.lastGet_eq_none_iff _ n).mpr (fun hc => hn ((hmemout n).mp hc)),
              hOn]
          · rw [hF', hgout]
            simp only [Option.getD_some]
            rw [SDict.get_update,
              (SDict.lastGet_eq_none_iff _ n).mpr (fun hc => hn ((hmemout n).mp hc)),
              hFn]

end LabelledFunction

/-! ### More dict lemmas for the `fix` equivalence -/

namespace SDict

variable {β : Type}

theorem set_eq_append (d : SDict β) (k : String) (v : β) (h : k ∉ keys d) :
    set d k v = d ++ [(k, v)] := by
  induction d with
  | nil => rfl
  | cons p d ih =>
    rw [keys_cons, List.mem_cons, not_or] at h
    show (if p.1 = k then (k, v) :: d else p :: set d k v) = (p :: d) ++ [(k, v)]
    rw [if_neg (fun he => h.1 (he.symm)), ih h.2]
    rfl

theorem lastGet_append (d1 d2 : SDict β) (m : String) :
    lastGet (d1 ++ d2) m =
      match lastGet d2 m with
      | some v => some v
      | Option.none => lastGet d1 m := by
  induction d1 with
  | nil =>
    show lastGet d2 m = _
    rcases lastGet d2 m with _ | v <;> rfl
  | cons p d1 ih =>
    show (match lastGet (d1 ++ d2) m with
          | some v => some v
          | Option.none => if p.1 = m then some p.2 else Option.none) = _
    rw [ih]
    rcases lastGet d2 m with _ | v <;> rfl

theorem lastGet_restrict_of_pred (d : SDict β) (p : String → Bool) (m : String)
    (h : p m = true) :
    lastGet (restrict d p) m = lastGet d m := by
  induction d with
  | nil => rfl
  | cons q d ih =>
    by_cases hq : p q.1
    · have hr : restrict (q :: d) p = q :: restrict d p := by
        unfold restrict
        exact List.filter_cons_of_pos hq
      rw [hr]
      show (match lastGet (restrict d p) m with
            | some v => some v
            | Option.none => if q.1 = m then some q.2 else Option.none) = _
      rw [ih]
      rfl
    · have hr : restrict (q :: d) p = restrict d p := by
        unfold restrict
        exact List.filter_cons_of_neg (by simpa using hq)
      rw [hr, ih]
      have hqm : ¬ (q.1 = m) := fun he => hq (by rw [he]; exact h)
      show lastGet d m = (match lastGet d m with
            | some v => some v
            | Option.none => if q.1 = m then some q.2 else Option.none)
      rcases lastGet d m with _ | v
      · rw [if_neg hqm]
      · rfl

end SDict

/-! ### The `start = None` edges of the graph -/

theorem processInputVar_noneEdges (ri : Bool) (fn : String) (dv : SDict PyObj)
    (s : GraphState) (var x fn0 : String) :
    (x, fn0) ∈ (processInputVar ri fn dv s var).noneEdges ↔
      (x, fn0) ∈ s.noneEdges
      ∨ (x = var ∧ fn0 = fn ∧ SDict.get s.last_modified var = Option.none) := by
  rcases h : SDict.get s.last_modified var with _ | w
  · rcases h2 : SDict.get dv var with _ | v <;>
      · simp [processInputVar, h, h2, List.mem_append, Prod.ext_iff]
  · by_cases hri : ri <;> simp [processInputVar, h, hri]

theorem inputLoop_noneEdges (ri : Bool) (fn : String) (dv : SDict PyObj) :
    ∀ (vars : List String) (s : GraphState) (x fn0 : String),
    (x, fn0) ∈ (vars.foldl (processInputVar ri fn dv) s).noneEdges ↔
      (x, fn0) ∈ s.noneEdges
      ∨ (x ∈ vars ∧ fn0 = fn ∧ SDict.get s.last_modified x = Option.none) := by
  intro vars
  induction vars with
  | nil => intro s x fn0; simp
  | cons v vs ih =>
    intro s x fn0
    rw [List.foldl_cons, ih, processInputVar_lm, processInputVar_noneEdges]
    constructor
    · rintro ((hx | ⟨rfl, rfl, hlm⟩) | ⟨hvs, rfl, hlm⟩)
      · exact Or.inl hx
      · exact Or.inr ⟨List.mem_cons_self x vs, rfl, hlm⟩
      · exact Or.inr ⟨List.mem_cons_of_mem v hvs, rfl, hlm⟩
    · rintro (hx | ⟨hmem, rfl, hlm⟩)
      · exact Or.inl (Or.inl hx)
      · rcases List.mem_cons.mp hmem with rfl | hvs
        · exact Or.inl (Or.inr ⟨rfl, rfl, hlm⟩)
        · exact Or.inr ⟨hvs, rfl, hlm⟩

theorem outputLoop_noneEdges (fn : String) :
    ∀ (vars : List String) (s : GraphState),
    (vars.foldl (processOutputVar fn) s).noneEdges = s.noneEdges := by
  intro vars
  induction vars with
  | nil => intro s; rfl
  | cons v vs ih =>
    intro s
    rw [List.foldl_cons, ih]
    rfl

theorem graphStep_noneEdges (ri : Bool) (s : GraphState) (f : LabelledFunction)
    (x fn0 : String) :
    (x, fn0) ∈ (graphStep ri s f).noneEdges ↔
      (x, fn0) ∈ s.noneEdges
      ∨ (x ∈ f.input_names ∧ fn0 = f.name
          ∧ SDict.get s.last_modified x = Option.none) := by
  unfold graphStep
  rw [outputLoop_noneEdges, inputLoop_noneEdges]

/-- Membership among the `Edge(None, var, fname)` edges of `_graph`: a step
named `fname` requires `var` while it is produced neither before the scan
nor by an earlier scanned step. -/
theorem mem_graphFold_noneEdges (ri : Bool) (fs : List LabelledFunction) :
    ∀ (s : GraphState) (x fn0 : String),
    (x, fn0) ∈ (graphFold ri s fs).noneEdges ↔
      (x, fn0) ∈ s.noneEdges
      ∨ ∃ pre g post, fs = pre ++ g :: post ∧ x ∈ g.input_names ∧ fn0 = g.name
          ∧ SDict.get s.last_modified x = Option.none
          ∧ ∀ h ∈ pre, x ∉ h.output_names.getD [] := by
  induction fs with
  | nil =>
    intro s x fn0
    show (x, fn0) ∈ s.noneEdges ↔ _
    constructor
    · exact fun hx => Or.inl hx
    · rintro (hx | ⟨pre, g, post, hsplit, -⟩)
      · exact hx
      · exact absurd hsplit (by simp)
  | cons f fs ih =>
    intro s x fn0
    show (x, fn0) ∈ (graphFold ri (graphStep ri s f) fs).noneEdges ↔ _
    rw [ih, graphStep_noneEdges]
    constructor
    · rintro ((hx | ⟨hin, rfl, hlm⟩) | ⟨pre, g, post, hsplit, hing, rfl, hlm', hpre⟩)
      · exact Or.inl hx
      · exact Or.inr ⟨[], f, fs, rfl, hin, rfl, hlm, by simp⟩
      · rw [graphStep_lm_none] at hlm'
        refine Or.inr ⟨f :: pre, g, post, by rw [hsplit]; rfl, hing, rfl, hlm'.1, ?_⟩
        intro h hh
        rcases List.mem_cons.mp hh with rfl | hh
        · exact hlm'.2
        · exact hpre h hh
    · rintro (hx | ⟨pre, g, post, hsplit, hing, rfl, hlm, hpre⟩)
      · exact Or.inl (Or.inl hx)
      · rcases pre with _ | ⟨p0, pre'⟩
        · rw [List.nil_append] at hsplit
          cases hsplit
          exact Or.inl (Or.inr ⟨hing, rfl, hlm⟩)
        · rw [List.cons_append] at hsplit
          cases hsplit
          refine Or.inr ⟨pre', g, post, rfl, hing, rfl, ?_, ?_⟩
          · rw [graphStep_lm_none]
            exact ⟨hlm, hpre f (List.mem_cons_self f _)⟩
          · intro h hh
            exact hpre h (List.mem_cons_of_mem f hh)

/-! ### `fix` on a pipeline with pairwise-distinct step names -/

/-- The list of steps after fixing the single name `n`, described
positionally: every step *before* the first producer of `n` that consumes
`n` gets `n` fixed; from the first producer of `n` on, the steps are kept
unchanged. -/
def fixList (n : String) (v : PyObj) : List LabelledFunction → List LabelledFunction
  | [] => []
  | f :: fs =>
    (if n ∈ f.input_names then f.fix [(n, v)] else f) ::
      (if n ∈ f.output_names.getD [] then fs else fixList n v fs)

theorem list_map_id_of {α : Type} (f : α → α) :
    ∀ (l : List α), (∀ x ∈ l, f x = x) → l.map f = l := by
  intro l
  induction l with
  | nil => intro _; rfl
  | cons a l ih =>
    intro h
    rw [List.map_cons, h a (List.mem_cons_self a l),
      ih (fun x hx => h x (List.mem_cons_of_mem a hx))]

/-- On a step list with pairwise-distinct names, a name-keyed fixing
predicate that holds exactly for the unproduced consumers of `n` fixes
exactly the steps `fixList` fixes. -/
theorem map_fixList (n : String) (v : PyObj) :
    ∀ (funcs : List LabelledFunction) (F : String → Bool),
    (funcs.map (fun f => f.name)).Nodup →
    (∀ g ∈ funcs, (F g.name = true ↔
      ∃ pre g' post, funcs = pre ++ g' :: post ∧ g'.name = g.name
        ∧ n ∈ g'.input_names ∧ ∀ h ∈ pre, n ∉ h.output_names.getD [])) →
    funcs.map (fun f => if F f.name then f.fix [(n, v)] else f)
      = fixList n v funcs := by
  intro funcs
  induction funcs with
  | nil => intro F _ _; rfl
  | cons f fs ih =>
    intro F hnodup hF
    have hfname : f.name ∉ fs.map (fun f => f.name) := (List.nodup_cons.mp hnodup).1
    have hnodup' : (fs.map (fun f => f.name)).Nodup := (List.nodup_cons.mp hnodup).2
    have hhead : F f.name = true ↔ n ∈ f.input_names := by
      rw [hF f (List.mem_cons_self f fs)]
      constructor
      · rintro ⟨pre, g', post, hsplit, hname, hin, hpre⟩
        rcases pre with _ | ⟨p0, pre'⟩
        · rw [List.nil_append] at hsplit
          cases hsplit
          exact hin
        · rw [List.cons_append] at hsplit
          cases hsplit
          have hg'mem : g' ∈ pre' ++ g' :: post :=
            List.mem_append_right _ (List.mem_cons_self _ _)
          exact absurd (by rw [← hname]; exact List.mem_map_of_mem _ hg'mem) hfname
      · intro hin
        exact ⟨[], f, fs, rfl, rfl, hin, by simp⟩
    rw [List.map_cons]
    show _ = (if n ∈ f.input_names then f.fix [(n, v)] else f) ::
      (if n ∈ f.output_names.getD [] then fs else fixList n v fs)
    have hheadeq : (if F f.name then f.fix [(n, v)] else f)
        = (if n ∈ f.input_names then f.fix [(n, v)] else f) := by
      by_cases hin : n ∈ f.input_names
      · rw [if_pos (hhead.mpr hin), if_pos hin]
      · rw [if_neg (fun hc => hin (hhead.mp hc)), if_neg hin]
    rw [hheadeq]
    by_cases hout : n ∈ f.output_names.getD []
    · rw [if_pos hout]
      refine congrArg _ (list_map_id_of _ fs ?_)
      intro g hg
      have hgF : ¬ (F g.name = true) := by
        intro hc
        rcases (hF g (List.mem_cons_of_mem f hg)).mp hc
          with ⟨pre, g', post, hsplit, hname, hin, hpre⟩
        rcases pre with _ | ⟨p0, pre'⟩
        · rw [List.nil_append] at hsplit
          cases hsplit
          have : g.name ∈ fs.map (fun f => f.name) := List.mem_map_of_mem _ hg
          rw [← hname] at this
          exact hfname this
        · rw [List.cons_append] at hsplit
          cases hsplit
          exact hpre f (List.mem_cons_self f _) hout
      rw [if_neg hgF]
    · rw [if_neg hout]
      refine congrArg _ (ih F hnodup' ?_)
      intro g hg
      rw [hF g (List.mem_cons_of_mem f hg)]
      constructor
      · rintro ⟨pre, g', post, hsplit, hname, hin, hpre⟩
        rcases pre with _ | ⟨p0, pre'⟩
        · rw [List.nil_append] at hsplit
          cases hsplit
          have : g.name ∈ fs.map (fun f => f.name) := List.mem_map_of_mem _ hg
          rw [← hname] at this
          exact absurd this hfname
        · rw [List.cons_append] at hsplit
          cases hsplit
          exact ⟨pre', g', post, rfl, hname, hin,
            fun h hh => hpre h (List.mem_cons_of_mem f hh)⟩
      · rintro ⟨pre, g', post, hsplit, hname, hin, hpre⟩
        refine ⟨f :: pre, g', post, by rw [hsplit]; rfl, hname, hin, ?_⟩
        intro h hh
        rcases List.mem_cons.mp hh with rfl | hh
        · exact hout
        · exact hpre h hh

theorem mem_inputsUsedBy (p : LabelledPipeline) (fname x : String) :
    x ∈ p.inputsUsedBy fname ↔
      (x, fname) ∈ (graphOf p.return_intermediate_outputs p.funcs).noneEdges := by
  unfold LabelledPipeline.inputsUsedBy
  constructor
  · intro hx
    rcases List.mem_map.mp hx with ⟨e, he, hfst⟩
    rcases List.mem_filter.mp he with ⟨he1, he2⟩
    rw [decide_eq_true_eq] at he2
    have : e = (x, fname) := Prod.ext hfst he2
    rw [← this]
    exact he1
  · intro hx
    exact List.mem_map.mpr ⟨(x, fname), List.mem_filter.mpr ⟨hx, by simp⟩, rfl⟩

/-- `LabelledPipeline.fix` unfolded to the `mkLabelledPipeline` call it
performs. -/
theorem fix_eq_mk (p : LabelledPipeline) (ntf : SDict PyObj) :
    p.fix ntf = mkLabelledPipeline
      (p.funcs.map (fun f =>
        let fixableNames := ntf.restrict (fun k => (p.inputsUsedBy f.name).contains k)
        if fixableNames.length > 0 then f.fix fixableNames else f))
      (some p.name)
      (some (p.default_values.restrict (fun n => ¬ (SDict.keys ntf).contains n)))
      p.return_intermediate_outputs := rfl

/-- Fixing the single name `n`: each step is fixed iff `n` is among the
pipeline inputs this step consumes. -/
theorem fix_single_map (p : LabelledPipeline) (n : String) (v : PyObj) :
    (p.funcs.map (fun f =>
      let fixableNames :=
        SDict.restrict [(n, v)] (fun k => (p.inputsUsedBy f.name).contains k)
      if fixableNames.length > 0 then f.fix fixableNames else f))
    = p.funcs.map (fun f =>
        if (p.inputsUsedBy f.name).contains n then f.fix [(n, v)] else f) := by
  have hfun : (fun (f : LabelledFunction) =>
      let fixableNames :=
        SDict.restrict [(n, v)] (fun k => (p.inputsUsedBy f.name).contains k)
      if fixableNames.length > 0 then f.fix fixableNames else f)
    = (fun f =>
        if (p.inputsUsedBy f.name).contains n then f.fix [(n, v)] else f) := by
    funext f
    by_cases hc : (p.inputsUsedBy f.name).contains n
    · simp only [SDict.restrict, List.filter, hc]
      simp
    · have hc' : (p.inputsUsedBy f.name).contains n = false := by
        rcases hb : (p.inputsUsedBy f.name).contains n with _ | _
        · rfl
        · exact absurd hb hc
      simp only [SDict.restrict, List.filter, hc']
      simp
  rw [hfun]

/-! ### Relating the graphs of the original and the fixed step lists -/

theorem fix_input_names_filter (f : LabelledFunction) (n : String) (v : PyObj) :
    (f.fix [(n, v)]).input_names = f.input_names.filter (fun m => ¬ m = n) := by
  show f.input_names.filter _ = _
  apply List.filter_congr
  intro m _
  show decide (¬ m ∈ SDict.keys [(n, v)]) = decide (¬ m = n)
  by_cases h : m = n <;> simp [h, SDict.keys]

theorem fix_default_get (f : LabelledFunction) (n : String) (v : PyObj)
    (m : String) :
    SDict.get (f.fix [(n, v)]).default_values m
      = if m = n then Option.none else SDict.get f.default_values m := by
  have h0 : (f.fix [(n, v)]).default_values
      = f.default_values.restrict
          (fun nn => ¬ (SDict.keys [(n, v)]).contains nn) := rfl
  rw [h0, SDict.get_restrict]
  by_cases h : m = n
  · subst h
    simp [SDict.keys]
  · simp [SDict.keys, h]

/-- The bisimulation relation between the graph state of the fixed step
list (`s`) and that of the original one (`t`): same producers, same
outputs, the pipeline inputs with `n` removed and the inherited defaults
with `n`'s entry removed. -/
def GraphRel (n : String) (s t : GraphState) : Prop :=
  s.last_modified = t.last_modified
  ∧ s.pipe_outputs = t.pipe_outputs
  ∧ (∀ x, x ∈ s.pipe_inputs ↔ (x ∈ t.pipe_inputs ∧ x ≠ n))
  ∧ (∀ m, m ≠ n → SDict.get s.default_values m = SDict.get t.default_values m)

theorem processInputVar_none_case (ri : Bool) (fn : String) (dv : SDict PyObj)
    (s : GraphState) (var : String)
    (h : SDict.get s.last_modified var = Option.none) :
    (processInputVar ri fn dv s var).pipe_outputs = s.pipe_outputs
    ∧ (processInputVar ri fn dv s var).pipe_inputs = addIfAbsent s.pipe_inputs var
    ∧ (processInputVar ri fn dv s var).last_modified = s.last_modified := by
  unfold processInputVar
  rw [h]
  rcases SDict.get dv var with _ | w <;> exact ⟨rfl, rfl, rfl⟩

theorem processInputVar_some_case (ri : Bool) (fn : String) (dv : SDict PyObj)
    (s : GraphState) (var : String) (w : String)
    (h : SDict.get s.last_modified var = some w) :
    processInputVar ri fn dv s var
      = (if ri then s
         else { s with pipe_outputs := s.pipe_outputs.filter (fun v => v ≠ var) }) := by
  unfold processInputVar
  rw [h]

theorem outputLoop_lm_fun (fn : String) :
    ∀ (vars : List String) (s : GraphState),
    (vars.foldl (processOutputVar fn) s).last_modified
      = vars.foldl (fun d var => SDict.set d var fn) s.last_modified := by
  intro vars
  induction vars with
  | nil => intro s; rfl
  | cons var vars ih =>
    intro s
    rw [List.foldl_cons, List.foldl_cons, ih]
    rfl

theorem outputLoop_po_fun (fn : String) :
    ∀ (vars : List String) (s : GraphState),
    (vars.foldl (processOutputVar fn) s).pipe_outputs
      = vars.foldl addIfAbsent s.pipe_outputs := by
  intro vars
  induction vars with
  | nil => intro s; rfl
  | cons var vars ih =>
    intro s
    rw [List.foldl_cons, List.foldl_cons, ih]
    rfl

theorem outputLoop_rel (fn n : String) (vars : List String) (s t : GraphState)
    (hR : GraphRel n s t) :
    GraphRel n (vars.foldl (processOutputVar fn) s)
      (vars.foldl (processOutputVar fn) t) := by
  obtain ⟨h1, h2, h3, h4⟩ := hR
  refine ⟨?_, ?_, ?_, ?_⟩
  · rw [outputLoop_lm_fun, outputLoop_lm_fun, h1]
  · rw [outputLoop_po_fun, outputLoop_po_fun, h2]
  · intro x
    rw [outputLoop_pipeInputs, outputLoop_pipeInputs]
    exact h3 x
  · intro m hm
    rw [outputLoop_defaults, outputLoop_defaults]
    exact h4 m hm

/-- Phase 1 of the graph bisimulation: one step's input loop before `n` has
been produced, with `n` removed from the consumed variables and from the
step defaults on the fixed side. -/
theorem inputLoop_rel_p1 (ri : Bool) (fn n : String) (dvS dvT : SDict PyObj)
    (hdv : ∀ m, m ≠ n → SDict.get dvS m = SDict.get dvT m) :
    ∀ (vars : List String) (s t : GraphState),
    GraphRel n s t →
    SDict.get t.last_modified n = Option.none →
    GraphRel n ((vars.filter (fun x => ¬ x = n)).foldl (processInputVar ri fn dvS) s)
      (vars.foldl (processInputVar ri fn dvT) t) := by
  intro vars
  induction vars with
  | nil => intro s t hR _; exact hR
  | cons var vars ih =>
    intro s t hR hn
    obtain ⟨h1, h2, h3, h4⟩ := hR
    by_cases hv : var = n
    · subst hv
      have hf : (var :: vars).filter (fun x => ¬ x = var)
          = vars.filter (fun x => ¬ x = var) := by simp
      rw [hf, List.foldl_cons]
      have hnT : SDict.get t.last_modified var = Option.none := hn
      obtain ⟨hpoT, hpiT, hlmT⟩ := processInputVar_none_case ri fn dvT t var hnT
      refine ih s (processInputVar ri fn dvT t var) ⟨?_, ?_, ?_, ?_⟩ ?_
      · rw [hlmT, h1]
      · rw [hpoT, h2]
      · intro x
        rw [hpiT, mem_addIfAbsent]
        constructor
        · intro hx
          have := (h3 x).mp hx
          exact ⟨Or.inl this.1, this.2⟩
        · rintro ⟨hx | rfl, hne⟩
          · exact (h3 x).mpr ⟨hx, hne⟩
          · exact absurd rfl hne
      · intro m hm
        rw [processInputVar_defaults_get,
          if_neg (fun hc => hm hc.1)]
        exact h4 m hm
      · rw [hlmT]
        exact hn
    · have hf : (var :: vars).filter (fun x => ¬ x = n)
          = var :: vars.filter (fun x => ¬ x = n) := by simp [hv]
      rw [hf, List.foldl_cons, List.foldl_cons]
      rcases hlmv : SDict.get t.last_modified var with _ | w
      · have hlmvS : SDict.get s.last_modified var = Option.none := by
          rw [h1]; exact hlmv
        obtain ⟨hpoS, hpiS, hlmS⟩ := processInputVar_none_case ri fn dvS s var hlmvS
        obtain ⟨hpoT, hpiT, hlmT⟩ := processInputVar_none_case ri fn dvT t var hlmv
        refine ih _ _ ⟨?_, ?_, ?_, ?_⟩ ?_
        · rw [hlmS, hlmT, h1]
        · rw [hpoS, hpoT, h2]
        · intro x
          rw [hpiS, hpiT, mem_addIfAbsent, mem_addIfAbsent]
          constructor
          · rintro (hx | rfl)
            · have := (h3 x).mp hx
              exact ⟨Or.inl this.1, this.2⟩
            · exact ⟨Or.inr rfl, hv⟩
          · rintro ⟨hx | rfl, hne⟩
            · exact Or.inl ((h3 x).mpr ⟨hx, hne⟩)
            · exact Or.inr rfl
        · intro m hm
          rw [processInputVar_defaults_get, processInputVar_defaults_get]
          by_cases hmv : m = var
          · subst hmv
            rw [hdv m hv]
            by_cases hsome : (SDict.get dvT m).isSome = true
            · rw [if_pos ⟨rfl, hlmvS, hsome⟩, if_pos ⟨rfl, hlmv, hsome⟩]
            · rw [if_neg (fun hc => hsome hc.2.2), if_neg (fun hc => hsome hc.2.2)]
              exact h4 m hm
          · rw [if_neg (fun hc => hmv hc.1), if_neg (fun hc => hmv hc.1)]
            exact h4 m hm
        · rw [hlmT]
          exact hn
      · have hlmvS : SDict.get s.last_modified var = some w := by
          rw [h1]; exact hlmv
        rw [processInputVar_some_case ri fn dvS s var w hlmvS,
            processInputVar_some_case ri fn dvT t var w hlmv]
        by_cases hri : ri = true
        · rw [if_pos hri, if_pos hri]
          exact ih s t ⟨h1, h2, h3, h4⟩ hn
        · rw [if_neg hri, if_neg hri]
          refine ih _ _ ⟨h1, by rw [h2], h3, h4⟩ hn

/-- Phase 2 of the graph bisimulation: once `n` has been produced, the two
scans run the same step and stay related. -/
theorem inputLoop_rel_p2 (ri : Bool) (fn n : String) (dv : SDict PyObj) :
    ∀ (vars : List String) (s t : GraphState),
    GraphRel n s t →
    (SDict.get t.last_modified n).isSome = true →
    GraphRel n (vars.foldl (processInputVar ri fn dv) s)
      (vars.foldl (processInputVar ri fn dv) t) := by
  intro vars
  induction vars with
  | nil => intro s t hR _; exact hR
  | cons var vars ih =>
    intro s t hR hn
    obtain ⟨h1, h2, h3, h4⟩ := hR
    rw [List.foldl_cons, List.foldl_cons]
    rcases hlmv : SDict.get t.last_modified var with _ | w
    · have hv : var ≠ n := by
        intro he
        rw [← he, hlmv] at hn
        simp at hn
      have hlmvS : SDict.get s.last_modified var = Option.none := by
        rw [h1]; exact hlmv
      obtain ⟨hpoS, hpiS, hlmS⟩ := processInputVar_none_case ri fn dv s var hlmvS
      obtain ⟨hpoT, hpiT, hlmT⟩ := processInputVar_none_case ri fn dv t var hlmv
      refine ih _ _ ⟨?_, ?_, ?_, ?_⟩ ?_
      · rw [hlmS, hlmT, h1]
      · rw [hpoS, hpoT, h2]
      · intro x
        rw [hpiS, hpiT, mem_addIfAbsent, mem_addIfAbsent]
        constructor
        · rintro (hx | rfl)
          · have := (h3 x).mp hx
            exact ⟨Or.inl this.1, this.2⟩
          · exact ⟨Or.inr rfl, hv⟩
        · rintro ⟨hx | rfl, hne⟩
          · exact Or.inl ((h3 x).mpr ⟨hx, hne⟩)
          · exact Or.inr rfl
      · intro m hm
        rw [processInputVar_defaults_get, processInputVar_defaults_get]
        by_cases hmv : m = var
        · subst hmv
          by_cases hsome : (SDict.get dv m).isSome = true
          · rw [if_pos ⟨rfl, hlmvS, hsome⟩, if_pos ⟨rfl, hlmv, hsome⟩]
          · rw [if_neg (fun hc => hsome hc.2.2), if_neg (fun hc => hsome hc.2.2)]
            exact h4 m hm
        · rw [if_neg (fun hc => hmv hc.1), if_neg (fun hc => hmv hc.1)]
          exact h4 m hm
      · rw [hlmT]
        exact hn
    · have hlmvS : SDict.get s.last_modified var = some w := by
        rw [h1]; exact hlmv
      rw [processInputVar_some_case ri fn dv s var w hlmvS,
          processInputVar_some_case ri fn dv t var w hlmv]
      by_cases hri : ri = true
      · rw [if_pos hri, if_pos hri]
        exact ih s t ⟨h1, h2, h3, h4⟩ hn
      · rw [if_neg hri, if_neg hri]
        exact ih _ _ ⟨h1, by rw [h2], h3, h4⟩ hn

theorem graphStep_rel_p2 (ri : Bool) (n : String) (f : LabelledFunction)
    (s t : GraphState) (hR : GraphRel n s t)
    (hn : (SDict.get t.last_modified n).isSome = true) :
    GraphRel n (graphStep ri s f) (graphStep ri t f) := by
  unfold graphStep
  apply outputLoop_rel
  exact inputLoop_rel_p2 ri f.name n f.default_values f.input_names s t hR hn

theorem graphFold_rel_p2 (ri : Bool) (n : String) :
    ∀ (fs : List LabelledFunction) (s t : GraphState),
    GraphRel n s t → (SDict.get t.last_modified n).isSome = true →
    GraphRel n (graphFold ri s fs) (graphFold ri t fs) := by
  intro fs
  induction fs with
  | nil => intro s t hR _; exact hR
  | cons f fs ih =>
    intro s t hR hn
    show GraphRel n (graphFold ri (graphStep ri s f) fs)
      (graphFold ri (graphStep ri t f) fs)
    apply ih _ _ (graphStep_rel_p2 ri n f s t hR hn)
    rw [graphStep_lm_isSome_bool, hn, Bool.true_or]

theorem graphStep_rel_p1 (ri : Bool) (n : String) (v : PyObj)
    (f : LabelledFunction) (s t : GraphState) (hR : GraphRel n s t)
    (hn : SDict.get t.last_modified n = Option.none) :
    GraphRel n (graphStep ri s (if n ∈ f.input_names then f.fix [(n, v)] else f))
      (graphStep ri t f) := by
  by_cases hin : n ∈ f.input_names
  · rw [if_pos hin]
    unfold graphStep
    have hnm : (f.fix [(n, v)]).name = f.name := rfl
    have hout : (f.fix [(n, v)]).output_names = f.output_names := rfl
    rw [hnm, hout, fix_input_names_filter]
    apply outputLoop_rel
    exact inputLoop_rel_p1 ri f.name n (f.fix [(n, v)]).default_values
      f.default_values
      (fun m hm => by rw [fix_default_get, if_neg hm])
      f.input_names s t hR hn
  · rw [if_neg hin]
    unfold graphStep
    have hfilter : f.input_names.filter (fun m => ¬ m = n) = f.input_names := by
      apply List.filter_eq_self.mpr
      intro a ha
      simp only [decide_eq_true_eq]
      exact fun he => hin (he ▸ ha)
    apply outputLoop_rel
    nth_rewrite 1 [← hfilter]
    exact inputLoop_rel_p1 ri f.name n f.default_values f.default_values
      (fun m _ => rfl) f.input_names s t hR hn

/-- The full graph bisimulation: scanning the fixed step list relates to
scanning the original one. -/
theorem graphFold_rel_fixList (ri : Bool) (n : String) (v : PyObj) :
    ∀ (fs : List LabelledFunction) (s t : GraphState),
    GraphRel n s t → SDict.get t.last_modified n = Option.none →
    GraphRel n (graphFold ri s (fixList n v fs)) (graphFold ri t fs) := by
  intro fs
  induction fs with
  | nil => intro s t hR _; exact hR
  | cons f fs ih =>
    intro s t hR hn
    show GraphRel n
      (graphFold ri
        (graphStep ri s (if n ∈ f.input_names then f.fix [(n, v)] else f))
        (if n ∈ f.output_names.getD [] then fs else fixList n v fs))
      (graphFold ri (graphStep ri t f) fs)
    have hR1 := graphStep_rel_p1 ri n v f s t hR hn
    by_cases hout : n ∈ f.output_names.getD []
    · rw [if_pos hout]
      exact graphFold_rel_p2 ri n fs _ _ hR1
        ((graphStep_lm_isSome ri t f n).mpr (Or.inr hout))
    · rw [if_neg hout]
      exact ih _ _ hR1 ((graphStep_lm_none ri t f n).mpr ⟨hn, hout⟩)

theorem graphOf_fixList_rel (ri : Bool) (n : String) (v : PyObj)
    (fs : List LabelledFunction) :
    GraphRel n (graphOf ri (fixList n v fs)) (graphOf ri fs) := by
  apply graphFold_rel_fixList
  · exact ⟨rfl, rfl, fun x => by simp [emptyGraphState], fun m _ => rfl⟩
  · rfl

/-- With pairwise-distinct step names, `LabelledPipeline.fix`'s per-step map
for a single fixed name is exactly `fixList`. -/
theorem fix_map_eq_fixList (p : LabelledPipeline) (n : String) (v : PyObj)
    (hnodup : (p.funcs.map (fun f => f.name)).Nodup) :
    p.funcs.map (fun f =>
      if (p.inputsUsedBy f.name).contains n then f.fix [(n, v)] else f)
    = fixList n v p.funcs := by
  apply map_fixList n v p.funcs
    (fun fname => (p.inputsUsedBy fname).contains n) hnodup
  intro g hg
  have h1 : ((p.inputsUsedBy g.name).contains n = true)
      ↔ n ∈ p.inputsUsedBy g.name := List.elem_iff
  rw [h1, mem_inputsUsedBy]
  show (n, g.name) ∈ (graphFold p.return_intermediate_outputs
    emptyGraphState p.funcs).noneEdges ↔ _
  rw [mem_graphFold_noneEdges]
  constructor
  · rintro (hc | ⟨pre, g', post, hsplit, hin, hname, -, hpre⟩)
    · exact absurd hc (by simp [emptyGraphState])
    · exact ⟨pre, g', post, hsplit, hname.symm, hin, hpre⟩
  · rintro ⟨pre, g', post, hsplit, hname, hin, hpre⟩
    exact Or.inr ⟨pre, g', post, hsplit, hin, hname.symm, rfl, hpre⟩

/-! ### The runtime bisimulation over the step list -/

theorem applyFuncs_cons_ok (f : LabelledFunction) (fs : List LabelledFunction)
    (ns : SDict PyObj) (res : SDict PyObj × List LabelledFunction)
    (h : applyFuncs (f :: fs) ns = .ok res) :
    ∃ ns1 f' ns2 fs', f.applyInNamespace ns = .ok (ns1, f')
      ∧ applyFuncs fs ns1 = .ok (ns2, fs') ∧ res = (ns2, f' :: fs') := by
  simp only [applyFuncs] at h
  rcases h1 : f.applyInNamespace ns with e | ⟨ns1, f'⟩
  · rw [h1, except_error_bind] at h
    cases h
  · rw [h1, except_ok_bind] at h
    rcases h2 : applyFuncs fs ns1 with e | ⟨ns2, fs'⟩
    · rw [h2, except_error_bind] at h
      cases h
    · rw [h2, except_ok_bind] at h
      cases h
      exact ⟨ns1, f', ns2, fs', rfl, h2, rfl⟩

theorem applyFuncs_cons_of (f : LabelledFunction) (fs : List LabelledFunction)
    (ns ns1 : SDict PyObj) (f' : LabelledFunction) (ns2 : SDict PyObj)
    (fs' : List LabelledFunction)
    (h1 : f.applyInNamespace ns = .ok (ns1, f'))
    (h2 : applyFuncs fs ns1 = .ok (ns2, fs')) :
    applyFuncs (f :: fs) ns = .ok (ns2, f' :: fs') := by
  simp only [applyFuncs]
  rw [h1, except_ok_bind]
  show applyFuncs fs ns1 >>= _ = _
  rw [h2, except_ok_bind]

/-- Threading lookup-equal namespaces through the same steps gives
lookup-equal results and the same returned steps. -/
theorem applyFuncs_get_congr :
    ∀ (fs : List LabelledFunction) (O F : SDict PyObj),
    (SDict.keys O).Nodup → (SDict.keys F).Nodup →
    (∀ m, SDict.get O m = SDict.get F m) →
    ∀ (F' : SDict PyObj) (gs : List LabelledFunction),
    applyFuncs fs F = .ok (F', gs) →
    ∃ O', applyFuncs fs O = .ok (O', gs)
      ∧ (SDict.keys O').Nodup ∧ (SDict.keys F').Nodup
      ∧ (∀ m, SDict.get O' m = SDict.get F' m) := by
  intro fs
  induction fs with
  | nil =>
    intro O F hO hF hrel F' gs h
    cases h
    exact ⟨O, rfl, hO, hF, hrel⟩
  | cons f fs ih =>
    intro O F hO hF hrel F' gs h
    obtain ⟨F1, f', F2, fs', h1, h2, h3⟩ := applyFuncs_cons_ok f fs F _ h
    obtain ⟨O1, hO1, hOn1, hFn1, hrel1⟩ :=
      LabelledFunction.apply_get_congr f O F hO hF hrel F1 f' h1
    obtain ⟨O2, hO2, hOn2, hFn2, hrel2⟩ := ih O1 F1 hOn1 hFn1 hrel1 F2 fs' h2
    cases h3
    exact ⟨O2, applyFuncs_cons_of f fs O O1 f' O2 fs' hO1 hO2,
      hOn2, hFn2, hrel2⟩

/-- The runtime bisimulation: running the fixed step list on a namespace
without `n` simulates running the original list on the namespace binding
`n` to the fixed value; the two final namespaces agree away from `n`, and
at `n` either some step produced it (and they agree everywhere) or no step
can produce it at all. -/
theorem applyFuncs_fix_bisim (n : String) (v : PyObj) :
    ∀ (fs : List LabelledFunction) (O F : SDict PyObj),
    (∀ g ∈ fs, ∃ names, g.output_names = some names) →
    (∀ g ∈ fs, g.hasNeverBeenRun = true) →
    (SDict.keys O).Nodup → (SDict.keys F).Nodup →
    (∀ m, m ≠ n → SDict.get O m = SDict.get F m) →
    SDict.get O n = some v → SDict.get F n = Option.none →
    ∀ (F' : SDict PyObj) (gs2 : List LabelledFunction),
    applyFuncs (fixList n v fs) F = .ok (F', gs2) →
    ∃ O' gs1, applyFuncs fs O = .ok (O', gs1)
      ∧ (SDict.keys O').Nodup ∧ (SDict.keys F').Nodup
      ∧ (∀ m, m ≠ n → SDict.get O' m = SDict.get F' m)
      ∧ ((∀ m, SDict.get O' m = SDict.get F' m)
         ∨ ((∀ g ∈ fs, n ∉ g.output_names.getD [])
            ∧ SDict.get O' n = some v ∧ SDict.get F' n = Option.none)) := by
  intro fs
  induction fs with
  | nil =>
    intro O F _ _ hO hF hrel hOn hFn F' gs2 h
    cases h
    exact ⟨O, [], rfl, hO, hF, hrel, Or.inr ⟨by simp, hOn, hFn⟩⟩
  | cons f fs ih =>
    intro O F hkn hfr hO hF hrel hOn hFn F' gs2 h
    have hfixc : fixList n v (f :: fs)
        = (if n ∈ f.input_names then f.fix [(n, v)] else f)
          :: (if n ∈ f.output_names.getD [] then fs else fixList n v fs) := rfl
    rw [hfixc] at h
    obtain ⟨F1, g2, F2, gs', h1, h2, h3⟩ := applyFuncs_cons_ok _ _ F _ h
    obtain ⟨names, hnames⟩ := hkn f (List.mem_cons_self f fs)
    have hfresh := hfr f (List.mem_cons_self f fs)
    obtain ⟨O1, hO1, hOn1, hFn1, hrel1, hsplit⟩ :=
      LabelledFunction.apply_fix_step f n v names O F hnames hfresh
        hO hF hrel hOn hFn F1 g2 h1
    have hgetD : f.output_names.getD [] = names := by rw [hnames]; rfl
    by_cases hout : n ∈ f.output_names.getD []
    · have hnn : n ∈ names := hgetD ▸ hout
      rw [if_pos hnn] at hsplit
      rw [if_pos hout] at h2
      obtain ⟨O2, hO2, hOn2, hFn2, hrel2⟩ :=
        applyFuncs_get_congr fs O1 F1 hOn1 hFn1 hsplit F2 gs' h2
      cases h3
      exact ⟨O2, { f with hasNeverBeenRun := false } :: gs',
        applyFuncs_cons_of f fs O O1 _ O2 gs' hO1 hO2,
        hOn2, hFn2, fun m _ => hrel2 m, Or.inl hrel2⟩
    · have hnn : n ∉ names := hgetD ▸ hout
      rw [if_neg hnn] at hsplit
      rw [if_neg hout] at h2
      obtain ⟨hO1n, hF1n⟩ := hsplit
      obtain ⟨O2, gs1, hO2, hOn2, hFn2, hrel2, hconc⟩ :=
        ih O1 F1 (fun g hg => hkn g (List.mem_cons_of_mem f hg))
          (fun g hg => hfr g (List.mem_cons_of_mem f hg))
          hOn1 hFn1 hrel1 hO1n hF1n F2 gs' h2
      cases h3
      refine ⟨O2, { f with hasNeverBeenRun := false } :: gs1,
        applyFuncs_cons_of f fs O O1 _ O2 gs1 hO1 hO2,
        hOn2, hFn2, hrel2, ?_⟩
      rcases hconc with hfull | ⟨hnp, ha, hb⟩
      · exact Or.inl hfull
      · refine Or.inr ⟨?_, ha, hb⟩
        intro g hg
        rcases List.mem_cons.mp hg with rfl | hg
        · exact hout
        · exact hnp g hg

/-! ### Support lemmas for the pipeline-level `fix` equivalence -/

theorem processInputVar_dv_nodup (ri : Bool) (fn : String) (dv : SDict PyObj)
    (s : GraphState) (var : String)
    (h : (SDict.keys s.default_values).Nodup) :
    (SDict.keys (processInputVar ri fn dv s var).default_values).Nodup := by
  rcases hg : SDict.get s.last_modified var with _ | w
  · rcases hd : SDict.get dv var with _ | x
    · simp only [processInputVar, hg, hd]
      exact h
    · simp only [processInputVar, hg, hd]
      exact SDict.nodup_keys_set _ _ _ h
  · by_cases hri : ri = true <;> simp only [processInputVar, hg, hri, if_true,
      if_false] <;> exact h

theorem inputLoop_dv_nodup (ri : Bool) (fn : String) (dv : SDict PyObj) :
    ∀ (vars : List String) (s : GraphState),
    (SDict.keys s.default_values).Nodup →
    (SDict.keys ((vars.foldl (processInputVar ri fn dv) s)).default_values).Nodup := by
  intro vars
  induction vars with
  | nil => intro s h; exact h
  | cons var vars ih =>
    intro s h
    rw [List.foldl_cons]
    exact ih _ (processInputVar_dv_nodup ri fn dv s var h)

theorem graphFold_dv_nodup (ri : Bool) :
    ∀ (fs : List LabelledFunction) (s : GraphState),
    (SDict.keys s.default_values).Nodup →
    (SDict.keys (graphFold ri s fs).default_values).Nodup := by
  intro fs
  induction fs with
  | nil => intro s h; exact h
  | cons f fs ih =>
    intro s h
    show (SDict.keys (graphFold ri (graphStep ri s f) fs).default_values).Nodup
    apply ih
    unfold graphStep
    rw [outputLoop_defaults]
    exact inputLoop_dv_nodup ri f.name f.default_values f.input_names s h

theorem nodup_keys_resolvedDefaults (ri : Bool) (funcs : List LabelledFunction)
    (dv0 : Option (SDict PyObj)) :
    (SDict.keys (resolvedDefaults ri funcs dv0)).Nodup := by
  have hg : (SDict.keys (graphOf ri funcs).default_values).Nodup :=
    graphFold_dv_nodup ri funcs emptyGraphState List.nodup_nil
  rcases dv0 with _ | d0
  · exact hg
  · exact SDict.nodup_keys_update _ _ hg

theorem get_resolvedDefaults_none (ri : Bool) (funcs : List LabelledFunction)
    (dv0 : Option (SDict PyObj)) (m : String)
    (h : SDict.get (resolvedDefaults ri funcs dv0) m = Option.none) :
    SDict.get (graphOf ri funcs).default_values m = Option.none := by
  rcases dv0 with _ | d0
  · exact h
  · have h0 : resolvedDefaults ri funcs (some d0)
        = (graphOf ri funcs).default_values.update d0 := rfl
    rw [h0, SDict.get_update] at h
    rcases hlg : SDict.lastGet d0 m with _ | w
    · rw [hlg] at h
      exact h
    · rw [hlg] at h
      cases h

theorem mem_keys_resolvedDefaults_of_graph (ri : Bool)
    (funcs : List LabelledFunction) (dv0 : Option (SDict PyObj)) (m : String)
    (h : m ∈ SDict.keys (graphOf ri funcs).default_values) :
    m ∈ SDict.keys (resolvedDefaults ri funcs dv0) := by
  rcases dv0 with _ | d0
  · exact h
  · exact (SDict.keys_update _ _ m).mpr (Or.inl h)

/-- `_preprocess_inputs` for a keyword-only call, with the conditions as
plain memberships. -/
theorem preprocessCore_ok_iff_noargs (cls nm : String) (ins : List String)
    (dvs : SDict PyObj) (kwargs : SDict PyObj)
    (args' : List PyObj) (kwargs' : SDict PyObj) :
    preprocessCore cls nm ins dvs [] kwargs = .ok (args', kwargs') ↔
      (∀ x ∈ ins, x ∈ SDict.keys kwargs ∨ x ∈ SDict.keys dvs)
      ∧ (∀ x, (x ∈ SDict.keys kwargs ∨ x ∈ SDict.keys dvs) → x ∈ ins)
      ∧ args' = [] ∧ kwargs' = dvs.update kwargs := by
  rw [preprocessCore_ok_iff, restrict_take_nil]
  have e : (ins.take (List.length ([] : List PyObj))) = [] := rfl
  rw [e]
  simp only [List.toFinset_nil, Finset.empty_union]
  constructor
  · rintro ⟨c1, c2, c3, c4⟩
    refine ⟨?_, ?_, c3, c4⟩
    · intro x hx
      have hsub := Finset.sdiff_eq_empty_iff_subset.mp c1
      have := hsub (List.mem_toFinset.mpr hx)
      rcases Finset.mem_union.mp this with h | h
      · exact Or.inl (List.mem_toFinset.mp h)
      · exact Or.inr (List.mem_toFinset.mp h)
    · intro x hx
      have hsub := Finset.sdiff_eq_empty_iff_subset.mp c2
      have hm : x ∈ (SDict.keys kwargs).toFinset ∪ (SDict.keys dvs).toFinset := by
        rcases hx with h | h
        · exact Finset.mem_union.mpr (Or.inl (List.mem_toFinset.mpr h))
        · exact Finset.mem_union.mpr (Or.inr (List.mem_toFinset.mpr h))
      exact List.mem_toFinset.mp (hsub hm)
  · rintro ⟨c1, c2, c3, c4⟩
    refine ⟨?_, ?_, c3, c4⟩
    · apply Finset.sdiff_eq_empty_iff_subset.mpr
      intro x hx
      rcases c1 x (List.mem_toFinset.mp hx) with h | h
      · exact Finset.mem_union.mpr (Or.inl (List.mem_toFinset.mpr h))
      · exact Finset.mem_union.mpr (Or.inr (List.mem_toFinset.mpr h))
    · apply Finset.sdiff_eq_empty_iff_subset.mpr
      intro x hx
      apply List.mem_toFinset.mpr
      apply c2 x
      rcases Finset.mem_union.mp hx with h | h
      · exact Or.inl (List.mem_toFinset.mp h)
      · exact Or.inr (List.mem_toFinset.mp h)

theorem pipeline_call_ok_elim (p : LabelledPipeline) (kwargs : SDict PyObj)
    (r : SDict PyObj) (p' : LabelledPipeline)
    (hfresh : p.hasNeverBeenRun = true)
    (h : p.call kwargs = .ok (r, p')) :
    ∃ a1 kw1 ns funcs',
      preprocessCore "LabelledPipeline" p.name p.input_names p.default_values
        [] kwargs = .ok (a1, kw1)
      ∧ applyFuncs p.funcs kw1 = .ok (ns, funcs')
      ∧ r = ns.restrict (fun x => p.output_names.contains x)
      ∧ (SDict.keys (ns.restrict (fun x => p.output_names.contains x))).toFinset
          = p.output_names.toFinset
      ∧ p' = { p with funcs := funcs', hasNeverBeenRun := false } := by
  simp only [LabelledPipeline.call] at h
  rcases h1 : preprocessCore "LabelledPipeline" p.name p.input_names
      p.default_values [] kwargs with e | ⟨a1, kw1⟩
  · rw [h1, except_error_bind] at h
    cases h
  · rw [h1, except_ok_bind] at h
    rcases h2 : applyFuncs p.funcs kw1 with e | ⟨ns, funcs'⟩
    · rw [h2, except_error_bind] at h
      cases h
    · rw [h2, except_ok_bind, hfresh] at h
      simp only [if_true] at h
      have ha : LabelledFunction.outputAsDict p.output_names
          (.dict (ns.restrict (fun x => p.output_names.contains x)))
          = ns.restrict (fun x => p.output_names.contains x) := rfl
      rw [ha] at h
      by_cases hchk : (SDict.keys (ns.restrict
          (fun x => p.output_names.contains x))).toFinset
          ≠ p.output_names.toFinset
      · rw [if_pos hchk] at h
        cases h
      · rw [if_neg hchk] at h
        cases h
        exact ⟨a1, kw1, ns, funcs', rfl, h2, rfl, not_not.mp hchk, rfl⟩

theorem pipeline_call_of (p : LabelledPipeline) (kwargs : SDict PyObj)
    (a1 : List PyObj) (kw1 ns : SDict PyObj) (funcs' : List LabelledFunction)
    (hfresh : p.hasNeverBeenRun = true)
    (hpre : preprocessCore "LabelledPipeline" p.name p.input_names
      p.default_values [] kwargs = .ok (a1, kw1))
    (happ : applyFuncs p.funcs kw1 = .ok (ns, funcs'))
    (hchk : (SDict.keys (ns.restrict (fun x => p.output_names.contains x))).toFinset
      = p.output_names.toFinset) :
    p.call kwargs = .ok (ns.restrict (fun x => p.output_names.contains x),
      { p with funcs := funcs', hasNeverBeenRun := false }) := by
  simp only [LabelledPipeline.call]
  rw [hpre, except_ok_bind]
  show applyFuncs p.funcs kw1 >>= _ = _
  rw [happ, except_ok_bind, hfresh]
  simp only [if_true]
  have ha : LabelledFunction.outputAsDict p.output_names
      (.dict (ns.restrict (fun x => p.output_names.contains x)))
      = ns.restrict (fun x => p.output_names.contains x) := rfl
  rw [ha, if_neg (fun hc => hc hchk)]

theorem lastGet_restrict_notkeys (d : SDict PyObj) (n : String) (v : PyObj)
    (m : String) (hm : m ≠ n) :
    SDict.lastGet (d.restrict (fun nn => ¬ (SDict.keys [(n, v)]).contains nn)) m
      = SDict.lastGet d m := by
  apply SDict.lastGet_restrict_of_pred
  simp [SDict.keys, hm]

theorem lastGet_restrict_notkeys_self (d : SDict PyObj) (n : String)
    (v : PyObj) :
    SDict.lastGet (d.restrict (fun nn => ¬ (SDict.keys [(n, v)]).contains nn)) n
      = Option.none := by
  rw [SDict.lastGet_eq_none_iff]
  intro hc
  rcases (SDict.mem_keys_restrict _ _ n).mp hc with ⟨-, hpred⟩
  simp [SDict.keys] at hpred

/-- **C6, amended.**  `fix(n=v)` on a pipeline whose steps have pairwise
distinct names (and known outputs, and have not been run yet) removes `n`
from the resulting pipeline's input names, and calling the fixed pipeline
with an argument mapping `A` not containing `n` that makes the call
succeed produces the same output mapping (same lookups at every key) as
calling the original pipeline with `A` extended by `n = v`.  (Without the
distinct-names proviso the claim is false — see the counterexample —
because `fix` matches the fixable inputs to the steps by step *name*.) -/
theorem pipeline_fix_equivalence
    (funcs : List LabelledFunction) (nm : Option String)
    (dv0 : Option (SDict PyObj)) (ri : Bool)
    (p q : LabelledPipeline) (n : String) (v : PyObj) (A : SDict PyObj)
    (hnodup : (funcs.map (fun f => f.name)).Nodup)
    (hfr : ∀ g ∈ funcs, g.hasNeverBeenRun = true)
    (hmk : mkLabelledPipeline funcs nm dv0 ri = .ok p)
    (hnin : n ∈ p.input_names)
    (hAn : n ∉ SDict.keys A)
    (hfix : p.fix [(n, v)] = .ok q)
    (r : SDict PyObj) (q' : LabelledPipeline)
    (hcall : q.call A = .ok (r, q')) :
    n ∉ q.input_names
    ∧ ∃ r' p', p.call (SDict.set A n v) = .ok (r', p')
        ∧ ∀ k, SDict.get r k = SDict.get r' k := by
  obtain ⟨hp, hkn0, hsubp⟩ := mk_ok_elim funcs nm dv0 ri p hmk
  have hpfuncs : p.funcs = funcs := by rw [hp]
  have hpri : p.return_intermediate_outputs = ri := by rw [hp]
  have hpins : p.input_names = (graphOf ri funcs).pipe_inputs := by rw [hp]
  have hpouts : p.output_names = (graphOf ri funcs).pipe_outputs := by rw [hp]
  have hpdv : p.default_values = resolvedDefaults ri funcs dv0 := by rw [hp]
  have hpfresh : p.hasNeverBeenRun = true := by rw [hp]
  -- unfold the fix into its `mkLabelledPipeline` call on `fixList`
  rw [fix_eq_mk, fix_single_map p n v] at hfix
  have hmapfix : p.funcs.map (fun f =>
      if (p.inputsUsedBy f.name).contains n then f.fix [(n, v)] else f)
      = fixList n v funcs := by
    rw [fix_map_eq_fixList p n v (by rw [hpfuncs]; exact hnodup), hpfuncs]
  rw [hmapfix, hpri] at hfix
  obtain ⟨hq, hknq, hsubq⟩ := mk_ok_elim _ _ _ _ q hfix
  have hqfuncs : q.funcs = fixList n v funcs := by rw [hq]
  have hqins : q.input_names = (graphOf ri (fixList n v funcs)).pipe_inputs := by
    rw [hq]
  have hqouts : q.output_names = (graphOf ri (fixList n v funcs)).pipe_outputs := by
    rw [hq]
  have hqdv : q.default_values
      = resolvedDefaults ri (fixList n v funcs)
          (some (p.default_values.restrict
            (fun nn => ¬ (SDict.keys [(n, v)]).contains nn))) := by
    rw [hq]
  have hqfresh : q.hasNeverBeenRun = true := by rw [hq]
  obtain ⟨hlmG, hpoG, hpiG, hdvG⟩ := graphOf_fixList_rel ri n v funcs
  have hinq : ∀ x, x ∈ q.input_names ↔ (x ∈ p.input_names ∧ x ≠ n) := by
    intro x
    rw [hqins, hpins]
    exact hpiG x
  have hnq : n ∉ q.input_names := fun hc => ((hinq n).mp hc).2 rfl
  have houtq : q.output_names = p.output_names := by
    rw [hqouts, hpouts, hpoG]
  have hqdv_eq : q.default_values
      = (graphOf ri (fixList n v funcs)).default_values.update
          (p.default_values.restrict
            (fun nn => ¬ (SDict.keys [(n, v)]).contains nn)) := by
    rw [hqdv]
    rfl
  have hpdvnodup : (SDict.keys p.default_values).Nodup := by
    rw [hpdv]
    exact nodup_keys_resolvedDefaults ri funcs dv0
  have hqdvnodup : (SDict.keys q.default_values).Nodup := by
    rw [hqdv]
    exact nodup_keys_resolvedDefaults _ _ _
  have hqp : ∀ m, m ≠ n →
      SDict.get q.default_values m = SDict.get p.default_values m := by
    intro m hm
    rw [hqdv_eq, SDict.get_update, lastGet_restrict_notkeys _ n v m hm,
      SDict.lastGet_eq_get_of_nodup _ hpdvnodup]
    rcases hgp : SDict.get p.default_values m with _ | w
    · show SDict.get (graphOf ri (fixList n v funcs)).default_values m
        = Option.none
      rw [hdvG m hm]
      apply get_resolvedDefaults_none ri funcs dv0
      rw [← hpdv]
      exact hgp
    · rfl
  have hsubp' : ∀ x, x ∈ SDict.keys p.default_values → x ∈ p.input_names := by
    intro x hx
    rw [hpdv] at hx
    have h1 := List.all_eq_true.mp hsubp x hx
    rw [hpins]
    exact List.elem_iff.mp h1
  have hsubq' : ∀ x, x ∈ SDict.keys q.default_values → x ∈ q.input_names := by
    intro x hx
    rw [hqdv] at hx
    have h1 := List.all_eq_true.mp hsubq x hx
    rw [hqins]
    exact List.elem_iff.mp h1
  have hqdvn : SDict.get q.default_values n = Option.none := by
    rw [SDict.get_eq_none_iff]
    intro hc
    exact hnq (hsubq' n hc)
  -- decompose the call of the fixed pipeline
  obtain ⟨a1, kw1F, nsF, funcsF, hpreF, happF, hrF, hchkF, hq'⟩ :=
    pipeline_call_ok_elim q A r q' hqfresh hcall
  obtain ⟨c1F, c2F, ha1, hkw1F⟩ :=
    (preprocessCore_ok_iff_noargs _ _ _ _ _ _ _).mp hpreF
  subst hkw1F
  -- the preprocessing of the original pipeline on `A ∪ {n: v}` succeeds
  have hsetA : SDict.set A n v = A ++ [(n, v)] := SDict.set_eq_append A n v hAn
  have c1O : ∀ x ∈ p.input_names,
      x ∈ SDict.keys (SDict.set A n v) ∨ x ∈ SDict.keys p.default_values := by
    intro x hx
    by_cases hxn : x = n
    · exact Or.inl ((SDict.mem_keys_set A n v x).mpr (Or.inl hxn))
    · have hxq : x ∈ q.input_names := (hinq x).mpr ⟨hx, hxn⟩
      rcases c1F x hxq with h | h
      · exact Or.inl ((SDict.mem_keys_set A n v x).mpr (Or.inr h))
      · refine Or.inr ?_
        have hs : (SDict.get q.default_values x).isSome = true :=
          (SDict.get_isSome_iff _ _).mpr h
        rw [hqp x hxn] at hs
        exact (SDict.get_isSome_iff _ _).mp hs
  have c2O : ∀ x,
      (x ∈ SDict.keys (SDict.set A n v) ∨ x ∈ SDict.keys p.default_values)
      → x ∈ p.input_names := by
    intro x hx
    rcases hx with hx | hx
    · rcases (SDict.mem_keys_set A n v x).mp hx with rfl | hx
      · exact hnin
      · exact ((hinq x).mp (c2F x (Or.inl hx))).1
    · exact hsubp' x hx
  have hpreO : preprocessCore "LabelledPipeline" p.name p.input_names
      p.default_values [] (SDict.set A n v)
      = .ok ([], p.default_values.update (SDict.set A n v)) :=
    (preprocessCore_ok_iff_noargs _ _ _ _ _ _ _).mpr ⟨c1O, c2O, rfl, rfl⟩
  -- the initial namespaces
  have hO0nodup :
      (SDict.keys (p.default_values.update (SDict.set A n v))).Nodup :=
    SDict.nodup_keys_update _ _ hpdvnodup
  have hF0nodup : (SDict.keys (q.default_values.update A)).Nodup :=
    SDict.nodup_keys_update _ _ hqdvnodup
  have hlgA : ∀ m, m ≠ n →
      SDict.lastGet (SDict.set A n v) m = SDict.lastGet A m := by
    intro m hm
    rw [hsetA, SDict.lastGet_append]
    have h1 : SDict.lastGet [(n, v)] m = Option.none := by
      rw [SDict.lastGet_eq_none_iff]
      intro hc
      simp [SDict.keys] at hc
      exact hm hc
    rw [h1]
  have hrel0 : ∀ m, m ≠ n →
      SDict.get (p.default_values.update (SDict.set A n v)) m
        = SDict.get (q.default_values.update A) m := by
    intro m hm
    rw [SDict.get_update, SDict.get_update, hlgA m hm, hqp m hm]
  have hO0n : SDict.get (p.default_values.update (SDict.set A n v)) n
      = some v := by
    rw [SDict.get_update, hsetA, SDict.lastGet_append]
    have h1 : SDict.lastGet [(n, v)] n = some v := by
      show (match SDict.lastGet ([] : SDict PyObj) n with
            | some w => some w
            | Option.none => if n = n then some v else Option.none) = some v
      simp [SDict.lastGet]
    rw [h1]
  have hF0n : SDict.get (q.default_values.update A) n = Option.none := by
    rw [SDict.get_update, (SDict.lastGet_eq_none_iff A n).mpr hAn]
    exact hqdvn
  have hknfuncs : ∀ g ∈ funcs, ∃ names, g.output_names = some names := by
    intro g hg
    rcases hgo : g.output_names with _ | names
    · exfalso
      have : funcs.any (fun f => f.output_names.isNone) = true :=
        List.any_eq_true.mpr ⟨g, hg, by rw [hgo]; rfl⟩
      rw [hkn0] at this
      cases this
    · exact ⟨names, rfl⟩
  -- run the bisimulation over the steps
  rw [hqfuncs] at happF
  obtain ⟨O', gs1, happO, hOn', hFn', hrel', hconc⟩ :=
    applyFuncs_fix_bisim n v funcs
      (p.default_values.update (SDict.set A n v))
      (q.default_values.update A)
      hknfuncs hfr hO0nodup hF0nodup
      (fun m hm => hrel0 m hm) hO0n hF0n nsF funcsF happF
  have hnout_of : (∀ g ∈ funcs, n ∉ g.output_names.getD [])
      → n ∉ p.output_names := by
    intro hnp hc
    rw [hpouts] at hc
    have hchar := (mem_graphFold_outputs ri funcs emptyGraphState n
      (fun y hy => absurd hy (by simp [emptyGraphState]))).mp hc
    rcases hchar with ⟨pre, g, post, hsplit, hgout, -⟩ | ⟨hmem, -⟩
    · exact hnp g
        (by rw [hsplit]; exact List.mem_append_right _ (List.mem_cons_self _ _))
        hgout
    · exact absurd hmem (by simp [emptyGraphState])
  have hkey : ∀ x, x ∈ p.output_names → SDict.get O' x = SDict.get nsF x := by
    intro x hx
    rcases hconc with hfull | ⟨hnp, -, -⟩
    · exact hfull x
    · by_cases hxn : x = n
      · subst hxn
        exact absurd hx (hnout_of hnp)
      · exact hrel' x hxn
  have hkeyseq : ∀ x,
      x ∈ SDict.keys (O'.restrict (fun y => p.output_names.contains y))
      ↔ x ∈ SDict.keys (nsF.restrict (fun y => p.output_names.contains y)) := by
    intro x
    rw [SDict.mem_keys_restrict, SDict.mem_keys_restrict]
    constructor
    · rintro ⟨h1, h2⟩
      refine ⟨?_, h2⟩
      have hs := (SDict.get_isSome_iff O' x).mpr h1
      rw [hkey x (List.elem_iff.mp h2)] at hs
      exact (SDict.get_isSome_iff nsF x).mp hs
    · rintro ⟨h1, h2⟩
      refine ⟨?_, h2⟩
      have hs := (SDict.get_isSome_iff nsF x).mpr h1
      rw [← hkey x (List.elem_iff.mp h2)] at hs
      exact (SDict.get_isSome_iff O' x).mp hs
  rw [houtq] at hchkF
  have hchkO : (SDict.keys (O'.restrict
      (fun y => p.output_names.contains y))).toFinset
      = p.output_names.toFinset := by
    rw [← hchkF]
    apply Finset.ext
    intro x
    rw [List.mem_toFinset, List.mem_toFinset]
    exact hkeyseq x
  have hcallO := pipeline_call_of p (SDict.set A n v) []
    (p.default_values.update (SDict.set A n v)) O' gs1 hpfresh hpreO
    (by rw [hpfuncs]; exact happO) hchkO
  refine ⟨hnq, O'.restrict (fun y => p.output_names.contains y),
    { p with funcs := gs1, hasNeverBeenRun := false }, hcallO, ?_⟩
  intro k
  rw [hrF, houtq, get_restrict_contains, get_restrict_contains]
  by_cases hk : k ∈ p.output_names
  · rw [if_pos hk, if_pos hk]
    exact (hkey k hk).symm
  · rw [if_neg hk, if_neg hk]

/-- A single step `W`: `c = a + b`, for the `fix`-equivalence witness. -/
def c6w1 : LabelledFunction :=
  { name := "W", input_names := ["a", "b"], output_names := some ["c"],
    default_values := [],
    function := fun _ m =>
      match m "a", m "b" with
      | some (.int x), some (.int y) => .int (x + y)
      | _, _ => .none }

/-- The one-step pipeline `[W]`. -/
def c6wpipe : LabelledPipeline :=
  ((mkLabelledPipeline [c6w1] Option.none Option.none false).toOption).getD junkPipe

/-- `c6wpipe.fix(a=2)`. -/
def c6wfixed : LabelledPipeline :=
  ((c6wpipe.fix [("a", .int 2)]).toOption).getD junkPipe

/-- The pipeline object returned by calling `c6wfixed` with `b=3`. -/
def c6wq : LabelledPipeline :=
  (((c6wfixed.call [("b", PyObj.int 3)]).toOption).map Prod.snd).getD junkPipe

theorem pipeline_fix_equivalence_witness :
    "a" ∉ c6wfixed.input_names
    ∧ ∃ r' p',
      c6wpipe.call (SDict.set [("b", PyObj.int 3)] "a" (PyObj.int 2))
        = .ok (r', p')
      ∧ ∀ k, SDict.get [("c", PyObj.int 5)] k = SDict.get r' k :=
  pipeline_fix_equivalence [c6w1] Option.none Option.none false
    c6wpipe c6wfixed "a" (PyObj.int 2) [("b", PyObj.int 3)]
    (by decide)
    (fun g hg => by rw [List.mem_singleton.mp hg]; rfl)
    rfl
    (by decide)
    (by decide)
    rfl
    [("c", PyObj.int 5)] c6wq rfl
